import Mathlib

/-!
Verification of the workspace path model and virtual version-control engine
of `useFileStore.ts` (vscode-lite).

The TypeScript code is embedded shallowly: JavaScript strings are Lean
`String`s manipulated through their character lists, JavaScript objects
(`Record<string, T>`) are association lists whose operations mirror the
first-insertion key order of JS objects, and the zustand store becomes a
plain state record transformed by pure functions.  Fresh UUIDs and
timestamps are passed explicitly as arguments.
-/

namespace VsLite

/-! ## PathModel: character-level helpers

JS `String.prototype.split('/')`, `trim`, `replace(/\\/g,'/')` are modelled
on `List Char`. -/

/-- `replace(/\\/g, '/')` on a single character. -/
def bslash2slash (c : Char) : Char := if c = '\\' then '/' else c

/-- JS `s.split('/')` on character lists: always returns at least one
(possibly empty) segment. -/
def splitSeg : List Char → List (List Char)
  | [] => [[]]
  | c :: cs =>
    match splitSeg cs with
    | [] => [[]]
    | s :: rest => if c = '/' then [] :: s :: rest else (c :: s) :: rest

/-- JS `s.trim()` on character lists: drop whitespace from both ends. -/
def trimChars (cs : List Char) : List Char :=
  ((cs.dropWhile Char.isWhitespace).reverse.dropWhile Char.isWhitespace).reverse

/-- JS `s.trim()` on strings. -/
def jsTrim (s : String) : String := String.mk (trimChars s.data)

/-- `normalizeWorkspacePath` on character lists: replace backslashes with
slashes, split on `/`, trim each segment, drop empty segments, rejoin. -/
def normalizeChars (cs : List Char) : List Char :=
  List.intercalate ['/']
    ((((splitSeg (cs.map bslash2slash)).map trimChars).filter (· ≠ [])))

/-- `normalizeWorkspacePath` from `useFileStore.ts`. -/
def normalizeWorkspacePath (rawPath : String) : String :=
  String.mk (normalizeChars rawPath.data)

/-- `getFileNameFromPath`: last segment of the normalized path. -/
def getFileNameFromPath (path : String) : String :=
  let normalized := normalizeWorkspacePath path
  String.mk ((splitSeg normalized.data).getLastD normalized.data)

/-- `getParentFolderPath`: all segments but the last, rejoined. -/
def getParentFolderPath (path : String) : String :=
  let normalized := normalizeWorkspacePath path
  String.mk (List.intercalate ['/'] (splitSeg normalized.data).dropLast)

/-- JS `name.lastIndexOf('.')`: index of the last `.`, `none` when absent. -/
def lastDotAux : List Char → Option Nat
  | [] => none
  | c :: cs =>
    match lastDotAux cs with
    | some j => some (j + 1)
    | none => if c = '.' then some 0 else none

/-- `splitFileName`: split at the last `.` with index `> 0`; a missing or
leading dot yields an empty extension. -/
def splitFileName (name : String) : String × String :=
  match lastDotAux name.data with
  | none => (name, "")
  | some 0 => (name, "")
  | some (j + 1) =>
    (String.mk (name.data.take (j + 1)), String.mk (name.data.drop (j + 1)))

/-- Lower-casing used to model the case-insensitive `localeCompare` with
`sensitivity: 'base'` of `sortPaths`. -/
def lowerStr (s : String) : String := String.mk (s.data.map Char.toLower)

/-- Lexicographic `≤` on character lists (kernel-reducible). -/
def leChars : List Char → List Char → Bool
  | [], _ => true
  | _ :: _, [] => false
  | a :: as, b :: bs => if a < b then true else if b < a then false else leChars as bs

theorem leChars_total (as bs : List Char) : leChars as bs = true ∨ leChars bs as = true := by
  induction as generalizing bs with
  | nil => exact Or.inl rfl
  | cons a as ih =>
    cases bs with
    | nil => exact Or.inr rfl
    | cons b bs =>
      rcases lt_trichotomy a b with h | h | h
      · left; simp [leChars, h]
      · subst h
        rcases ih bs with h' | h'
        · left; simp [leChars, lt_irrefl, h']
        · right; simp [leChars, lt_irrefl, h']
      · right; simp [leChars, h]

theorem leChars_trans {as bs cs : List Char} (h₁ : leChars as bs = true)
    (h₂ : leChars bs cs = true) : leChars as cs = true := by
  induction as generalizing bs cs with
  | nil => rfl
  | cons a as ih =>
    cases bs with
    | nil => simp [leChars] at h₁
    | cons b bs =>
      cases cs with
      | nil => simp [leChars] at h₂
      | cons c cs =>
        simp only [leChars] at h₁ h₂ ⊢
        rcases lt_trichotomy a b with hab | hab | hab
        · rcases lt_trichotomy b c with hbc | hbc | hbc
          · simp [hab.trans hbc]
          · subst hbc; simp [hab]
          · simp [lt_asymm hbc, hbc] at h₂
        · subst hab
          rcases lt_trichotomy a c with hac | hac | hac
          · simp [hac]
          · subst hac
            simp [lt_irrefl] at h₁ h₂ ⊢
            exact ih h₁ h₂
          · simp [lt_asymm hac, hac] at h₂
        · simp [lt_asymm hab, hab] at h₁

/-- The case-insensitive order underlying `sortPaths`. -/
def leCI (a b : String) : Prop := leChars (lowerStr a).data (lowerStr b).data = true

instance : DecidableRel leCI := fun _ _ =>
  inferInstanceAs (Decidable (_ = true))

instance : IsTotal String leCI := ⟨fun _ _ => leChars_total _ _⟩

instance : IsTrans String leCI := ⟨fun _ _ _ h h' => leChars_trans h h'⟩

/-- `sortPaths`: a stable sort under the case-insensitive comparison. -/
def sortPaths (paths : List String) : List String := paths.insertionSort leCI

/-- JS `new Set(...)` iteration order: deduplicate keeping the first
occurrence of each element.  Fuel-based so that it reduces by `rfl`. -/
def dedupKeepFirstAux : Nat → List String → List String
  | 0, _ => []
  | _, [] => []
  | fuel + 1, x :: xs => x :: dedupKeepFirstAux fuel (xs.filter (· ≠ x))

def dedupKeepFirst (l : List String) : List String := dedupKeepFirstAux l.length l

/-- Decimal printing of a natural number (JS template `${index}`),
fuel-based so that it reduces by `rfl`. -/
def natToStringAux : Nat → Nat → List Char
  | 0, _ => []
  | fuel + 1, n =>
    if n < 10 then [Nat.digitChar n]
    else natToStringAux fuel (n / 10) ++ [Nat.digitChar (n % 10)]

def natToString (n : Nat) : String := String.mk (natToStringAux (n + 1) n)

/-- The candidate path tried by `ensureUniquePath` at index `i ≥ 1`:
`` `${base}-${index}${extension}` `` placed under `parent`. -/
def euCandidate (parent base extension : String) (i : Nat) : String :=
  let candidateName := base ++ "-" ++ natToString i ++ extension
  if parent = "" then candidateName else parent ++ "/" ++ candidateName

/-- `ensureUniquePath` from `useFileStore.ts`: return the normalized path if
free, otherwise the first free suffixed candidate among indices `1..999`;
if all are taken return the normalized path unchanged. -/
def ensureUniquePath (path : String) (hasPath : String → Bool) : String :=
  let normalized := normalizeWorkspacePath path
  if normalized = "" then normalized
  else if !hasPath normalized then normalized
  else
    let parent := getParentFolderPath normalized
    let fileName := getFileNameFromPath normalized
    let be := splitFileName fileName
    match (List.range' 1 999).find? (fun i => !hasPath (euCandidate parent be.1 be.2 i)) with
    | some i => euCandidate parent be.1 be.2 i
    | none => normalized

/-- `inferLanguageFromPath` from `useFileStore.ts`. -/
def inferLanguageFromPath (path : String) : String :=
  let extension := lowerStr (((getFileNameFromPath path).data.splitOn '.').getLastD [] |> String.mk)
  if extension = "ts" ∨ extension = "tsx" then "typescript"
  else if extension = "js" ∨ extension = "jsx" then "javascript"
  else if extension = "css" then "css"
  else if extension = "html" then "html"
  else if extension = "json" then "json"
  else if extension = "md" then "markdown"
  else "plaintext"

/-- `collectFolderHierarchy`: every prefix folder of a normalized path. -/
def collectFolderHierarchy (path : String) : List String :=
  let normalized := normalizeWorkspacePath path
  if normalized = "" then []
  else
    let segs := splitSeg normalized.data
    (List.range' 1 segs.length).map (fun i => String.mk (List.intercalate ['/'] (segs.take i)))

/-- `collectAncestorFolders`: folder hierarchy of the parent. -/
def collectAncestorFolders (path : String) : List String :=
  collectFolderHierarchy (getParentFolderPath path)

example : sortPaths ["b.ts", "A.ts", "a.ts"] = ["A.ts", "a.ts", "b.ts"] := by decide
example : dedupKeepFirst ["a", "b", "a", "c", "b"] = ["a", "b", "c"] := by decide
example : natToString 0 = "0" ∧ natToString 137 = "137" := by decide
example : ensureUniquePath "lib/a.ts" (fun c => c = "lib/a.ts") = "lib/a-1.ts" := by decide
example : ensureUniquePath "a.ts" (fun c => c = "a.ts" ∨ c = "a-1.ts") = "a-2.ts" := by decide
example : inferLanguageFromPath "x/App.tsx" = "typescript" := by decide
example : inferLanguageFromPath "x/readme" = "plaintext" := by decide
example : collectFolderHierarchy "a/b/c" = ["a", "a/b", "a/b/c"] := by decide
example : collectAncestorFolders "a/b/c.ts" = ["a", "a/b"] := by decide

/-! ## Records: JS objects as association lists

`rfind` is property lookup, `rset` is property assignment (in-place update
of an existing key, append otherwise — matching JS first-insertion key
order), `rerase` is `delete`, `rkeys` is `Object.keys`. -/

def rfind {α : Type} (r : List (String × α)) (k : String) : Option α :=
  (r.find? (fun kv => kv.1 = k)).map (·.2)

def rset {α : Type} (r : List (String × α)) (k : String) (v : α) : List (String × α) :=
  if r.any (fun kv => kv.1 = k) then r.map (fun kv => if kv.1 = k then (k, v) else kv)
  else r ++ [(k, v)]

def rerase {α : Type} (r : List (String × α)) (k : String) : List (String × α) :=
  r.filter (fun kv => kv.1 ≠ k)

def rkeys {α : Type} (r : List (String × α)) : List String :=
  dedupKeepFirst (r.map (·.1))

/-! ## Data model -/

/-- `File` from `useFileStore.ts`. -/
structure File where
  id : String
  name : String
  path : String
  content : String
  savedContent : String
  language : String
deriving Repr, DecidableEq

/-- `GitChangeType`: `'added' | 'modified' | 'deleted'`. -/
inductive GitChangeType where
  | added
  | modified
  | deleted
deriving Repr, DecidableEq

/-- `GitChange` entries returned by `getGitChanges`. -/
structure GitChange where
  path : String
  type : GitChangeType
  staged : Bool
deriving Repr, DecidableEq

/-- `GitCommit`; `changes` keeps `{path, type}` pairs. -/
structure GitCommit where
  id : String
  branch : String
  message : String
  timestamp : Nat
  changes : List (String × GitChangeType)
deriving Repr, DecidableEq

/-- A branch tree: JS `Record<string, string>` mapping path to content. -/
abbrev Tree := List (String × String)

/-- `GitBranchState`. -/
structure GitBranchState where
  tree : Tree
  commits : List GitCommit
deriving Repr, DecidableEq

/-- The slice of the zustand store state the engine operates on. -/
structure FileStoreState where
  files : List File
  folders : List String
  activeFileId : Option String
  activeSelection : String
  gitBranches : List (String × GitBranchState)
  gitCurrentBranch : String
  gitStagedPaths : List String
deriving Repr, DecidableEq

/-- Result type of the git operations (`{ok: true}` / `{ok: false, error}`). -/
inductive GitOpResult where
  | ok
  | error (msg : String)
deriving Repr, DecidableEq

/-- `createFile`: normalizes the path and derives the display name. -/
def createFile (id path language content savedContent : String) : File :=
  let normalizedPath := normalizeWorkspacePath path
  { id := id
    path := normalizedPath
    name := getFileNameFromPath normalizedPath
    content := content
    savedContent := savedContent
    language := language }

/-- `createTreeFromFiles`: fold the file list into a path→content record. -/
def createTreeFromFiles (files : List File) (useSavedContent : Bool) : Tree :=
  files.foldl (fun tree file =>
    rset tree file.path (if useSavedContent then file.savedContent else file.content)) []

/-- `createFilesFromTree`: fresh `File` entities from a snapshot; fresh ids
are supplied by `idGen` (the injected `crypto.randomUUID`). -/
def createFilesFromTree (idGen : Nat → String) (tree : Tree) : List File :=
  ((sortPaths (rkeys tree)).enum).map (fun ip =>
    createFile (idGen ip.1) ip.2 (inferLanguageFromPath ip.2)
      ((rfind tree ip.2).getD "") ((rfind tree ip.2).getD ""))

/-- `resolveGitChangeType` from `useFileStore.ts`. -/
def resolveGitChangeType (baseContent workingContent : Option String) : Option GitChangeType :=
  match baseContent, workingContent with
  | none, some _ => some .added
  | some _, none => some .deleted
  | some b, some w => if b ≠ w then some .modified else none
  | none, none => none

/-- `getGitChanges` from `useFileStore.ts`. -/
def getGitChanges (files : List File) (headTree : Tree)
    (stagedPaths : List String) : List GitChange :=
  let workingTree := createTreeFromFiles files false
  let stagedSet := (stagedPaths.map normalizeWorkspacePath).filter (· ≠ "")
  let allPaths := sortPaths (dedupKeepFirst (rkeys headTree ++ rkeys workingTree))
  allPaths.filterMap (fun path =>
    (resolveGitChangeType (rfind headTree path) (rfind workingTree path)).map
      (fun type => { path := path, type := type, staged := stagedSet.contains path }))

/-- `sanitizeBranchName` helper: collapse each maximal whitespace run into a
single `-` (JS `replace(/\s+/g, '-')`). -/
def collapseWsAux : List Char → Bool → List Char
  | [], _ => []
  | c :: cs, inRun =>
    if c.isWhitespace then
      (if inRun then collapseWsAux cs true else '-' :: collapseWsAux cs true)
    else c :: collapseWsAux cs false

/-- A character allowed by the branch-name pattern: letters, digits, `.`,
`_`, slash, or dash. -/
def branchCharOk (c : Char) : Bool :=
  c.isAlpha || c.isDigit || c = '.' || c = '_' || c = '/' || c = '-'

/-- `sanitizeBranchName` from `useFileStore.ts`. -/
def sanitizeBranchName (value : String) : String :=
  let trimmed := collapseWsAux (trimChars value.data) false
  if trimmed = [] then ""
  else if !trimmed.all branchCharOk then ""
  else normalizeWorkspacePath (String.mk trimmed)

/-- `mergeFolderPaths`: normalize, drop empties, set-union preserving first
insertion order, then sort. -/
def mergeFolderPaths (groups : List (List String)) : List String :=
  sortPaths (dedupKeepFirst
    ((groups.map (fun group => (group.map normalizeWorkspacePath).filter (· ≠ ""))).flatten))

/-- `inferFolderPathsFromFiles`: ancestor folders implied by file paths. -/
def inferFolderPathsFromFiles (files : List File) : List String :=
  sortPaths (dedupKeepFirst ((files.map (fun file => collectAncestorFolders file.path)).flatten))

/-- `ensureUniqueFilePath`: deduplicate against all files except the one
with id `excludeFileId`. -/
def ensureUniqueFilePath (path : String) (files : List File)
    (excludeFileId : Option String) : String :=
  ensureUniquePath path (fun candidate =>
    files.any (fun file => file.path = candidate && some file.id ≠ excludeFileId))

/-! ## Store operations

Each zustand action becomes a pure function on `FileStoreState`.  Calls to
`crypto.randomUUID()` / `Date.now()` become explicit arguments; the
`persist*` calls are fire-and-forget effects outside the state and are
dropped. -/

/-- `addFile`; `newId` stands for the generated UUID. -/
def addFile (s : FileStoreState) (path : String) (language : Option String)
    (newId : String) : FileStoreState :=
  let normalizedPath := normalizeWorkspacePath path
  if normalizedPath = "" then s
  else
    let uniquePath := ensureUniqueFilePath normalizedPath s.files none
    let nextLanguage :=
      match language with
      | some l => if jsTrim l ≠ "" then jsTrim l else inferLanguageFromPath uniquePath
      | none => inferLanguageFromPath uniquePath
    let newFile := createFile newId uniquePath nextLanguage "" ""
    { s with
      files := s.files ++ [newFile]
      folders := mergeFolderPaths [s.folders, collectAncestorFolders uniquePath]
      activeFileId := some newId }

/-- `addFolder`. -/
def addFolder (s : FileStoreState) (path : String) : FileStoreState :=
  let normalizedPath := normalizeWorkspacePath path
  if normalizedPath = "" then s
  else { s with folders := mergeFolderPaths [s.folders, collectFolderHierarchy normalizedPath] }

/-- `renameFile`. -/
def renameFile (s : FileStoreState) (id : String) (path : String) : FileStoreState :=
  match s.files.find? (fun file => file.id = id) with
  | none => s
  | some existing =>
    let normalizedPath := normalizeWorkspacePath path
    if normalizedPath = "" then s
    else
      let nextPath := ensureUniqueFilePath normalizedPath s.files (some id)
      if nextPath = existing.path then s
      else
        { s with
          files := s.files.map (fun file =>
            if file.id = id then
              { file with
                path := nextPath
                name := getFileNameFromPath nextPath
                language := inferLanguageFromPath nextPath }
            else file)
          folders := mergeFolderPaths [s.folders, collectAncestorFolders nextPath] }

/-- JS `s.startsWith(p)`. -/
def strStartsWith (s p : String) : Bool := p.data.isPrefixOf s.data

/-- JS `s.slice(n)` (by characters). -/
def strDrop (s : String) (n : Nat) : String := String.mk (s.data.drop n)

/-- The per-file pass of `renameFolder`: JS `files.map` whose closure grows
the mutable `usedPaths` set as moved files are assigned. -/
def renameMovedAux (normalizedFrom normalizedTo : String) (movedFileIds : List String) :
    List File → List String → List File
  | [], _ => []
  | file :: rest, usedPaths =>
    if movedFileIds.contains file.id then
      let desiredPath := normalizedTo ++ strDrop file.path normalizedFrom.length
      let uniquePath := ensureUniquePath desiredPath (fun c => usedPaths.contains c)
      { file with
        path := uniquePath
        name := getFileNameFromPath uniquePath
        language := inferLanguageFromPath uniquePath } ::
          renameMovedAux normalizedFrom normalizedTo movedFileIds rest (usedPaths ++ [uniquePath])
    else file :: renameMovedAux normalizedFrom normalizedTo movedFileIds rest usedPaths

/-- `renameFolder` from `useFileStore.ts`. -/
def renameFolder (s : FileStoreState) (fromPath toPath : String) : FileStoreState :=
  let normalizedFrom := normalizeWorkspacePath fromPath
  let normalizedTo := normalizeWorkspacePath toPath
  if normalizedFrom = "" ∨ normalizedTo = "" ∨ normalizedFrom = normalizedTo then s
  else if strStartsWith normalizedTo (normalizedFrom ++ "/") then s
  else
    let allFolders := mergeFolderPaths [s.folders, inferFolderPathsFromFiles s.files]
    let moveFolder := fun (path : String) =>
      path = normalizedFrom || strStartsWith path (normalizedFrom ++ "/")
    if !allFolders.any moveFolder then s
    else
      let movedFileIds :=
        (s.files.filter (fun file => strStartsWith file.path (normalizedFrom ++ "/"))).map (·.id)
      let usedPaths :=
        (s.files.filter (fun file => !movedFileIds.contains file.id)).map (·.path)
      let nextFiles := renameMovedAux normalizedFrom normalizedTo movedFileIds s.files usedPaths
      let movedFolders := (allFolders.filter moveFolder).map
        (fun path => normalizedTo ++ strDrop path normalizedFrom.length)
      let untouchedFolders := allFolders.filter (fun path => !moveFolder path)
      { s with
        files := nextFiles
        folders := mergeFolderPaths
          [untouchedFolders, movedFolders, collectFolderHierarchy normalizedTo,
           inferFolderPathsFromFiles nextFiles] }

/-- `applyFileEdit`; `newId` stands for the generated UUID used when the
edit creates a file. -/
def applyFileEdit (s : FileStoreState) (editPath editContent : String)
    (newId : String) : FileStoreState :=
  let normalizedPath := normalizeWorkspacePath editPath
  if normalizedPath = "" then s
  else
    match s.files.find? (fun file => file.path = normalizedPath) with
    | some existing =>
      { s with
        files := s.files.map (fun file =>
          if file.id = existing.id then { file with content := editContent } else file)
        folders := mergeFolderPaths [s.folders, collectAncestorFolders normalizedPath]
        activeFileId := some existing.id }
    | none =>
      { s with
        files := s.files ++
          [createFile newId normalizedPath (inferLanguageFromPath normalizedPath)
            editContent editContent]
        folders := mergeFolderPaths [s.folders, collectAncestorFolders normalizedPath]
        activeFileId := some newId }

/-- `deleteFile`. -/
def deleteFile (s : FileStoreState) (id : String) : FileStoreState :=
  let nextFiles := s.files.filter (fun file => file.id ≠ id)
  { s with
    files := nextFiles
    activeFileId :=
      if s.activeFileId = some id then (nextFiles.head?).map (·.id) else s.activeFileId }

/-- The body of the `stagedChanges.forEach` loop of `commitGitChanges`:
apply one staged change to the tree copy (`deleted` removes the path,
otherwise the working content is written when present). -/
def commitApplyChange (workingTree : Tree) (tree : Tree) (change : GitChange) : Tree :=
  match change.type with
  | .deleted => rerase tree change.path
  | _ =>
    match rfind workingTree change.path with
    | some content => rset tree change.path content
    | none => tree

/-- `commitGitChanges`; `cid` and `ts` stand for the generated commit id
and `Date.now()`. -/
def commitGitChanges (s : FileStoreState) (message : String) (cid : String)
    (ts : Nat) : GitOpResult × FileStoreState :=
  let trimmedMessage := jsTrim message
  if trimmedMessage = "" then (.error "Commit message is required.", s)
  else
    match rfind s.gitBranches s.gitCurrentBranch with
    | none => (.error "Current branch is unavailable.", s)
    | some currentBranchState =>
      let stagedChanges :=
        (getGitChanges s.files currentBranchState.tree s.gitStagedPaths).filter (·.staged)
      if stagedChanges = [] then (.error "Stage at least one change before committing.", s)
      else
        let workingTree := createTreeFromFiles s.files false
        let nextTree := stagedChanges.foldl (commitApplyChange workingTree) currentBranchState.tree
        let commit : GitCommit :=
          { id := cid
            branch := s.gitCurrentBranch
            message := trimmedMessage
            timestamp := ts
            changes := stagedChanges.map (fun change => (change.path, change.type)) }
        let nextBranches := rset s.gitBranches s.gitCurrentBranch
          { tree := nextTree, commits := currentBranchState.commits ++ [commit] }
        (.ok, { s with gitBranches := nextBranches, gitStagedPaths := [] })

/-- `createGitBranch`. -/
def createGitBranch (s : FileStoreState) (name : String) : GitOpResult × FileStoreState :=
  let normalizedName := sanitizeBranchName name
  if normalizedName = "" then
    (.error "Branch name can only contain letters, numbers, ., _, -, and /.", s)
  else
    match rfind s.gitBranches normalizedName with
    | some _ => (.error ("Branch \x22" ++ normalizedName ++ "\x22 already exists."), s)
    | none =>
      match rfind s.gitBranches s.gitCurrentBranch with
      | none => (.error "Current branch is unavailable.", s)
      | some sourceBranch =>
        (.ok, { s with
          gitBranches := rset s.gitBranches normalizedName
            { tree := sourceBranch.tree, commits := sourceBranch.commits } })

/-- `switchGitBranch`; `idGen` supplies the fresh file ids used when the
working set is rebuilt from the target snapshot. -/
def switchGitBranch (s : FileStoreState) (name : String)
    (idGen : Nat → String) : GitOpResult × FileStoreState :=
  let normalizedName := sanitizeBranchName name
  if normalizedName = "" then (.error "Branch name is invalid.", s)
  else
    match rfind s.gitBranches normalizedName with
    | none => (.error ("Branch \x22" ++ normalizedName ++ "\x22 does not exist."), s)
    | some targetBranch =>
      if normalizedName = s.gitCurrentBranch then (.ok, s)
      else
        let currentTree := ((rfind s.gitBranches s.gitCurrentBranch).map (·.tree)).getD []
        let pendingChanges := getGitChanges s.files currentTree s.gitStagedPaths
        if pendingChanges ≠ [] then
          (.error "Commit or unstage changes before switching branches.", s)
        else
          let nextFiles := createFilesFromTree idGen targetBranch.tree
          (.ok, { s with
            files := nextFiles
            folders := inferFolderPathsFromFiles nextFiles
            activeFileId := (nextFiles.head?).map (·.id)
            gitCurrentBranch := normalizedName
            gitStagedPaths := []
            activeSelection := "" })

example : sanitizeBranchName "  feat /  new " = "feat-/-new" := by decide
example : sanitizeBranchName "dev" = "dev" := by decide
example : sanitizeBranchName "bad name!" = "" := by decide
example : sanitizeBranchName "a.b_c-d/e" = "a.b_c-d/e" := by decide

/-- A quick sanity check mirroring the worked diff example of the spec. -/
example :
    getGitChanges
      [createFile "1" "a.ts" "typescript" "2" "1", createFile "2" "b.ts" "typescript" "new" "new"]
      [("a.ts", "1")] ["a.ts"] =
    [{ path := "a.ts", type := .modified, staged := true },
     { path := "b.ts", type := .added, staged := false }] := by decide

example : normalizeWorkspacePath "a\\b//c /d/" = "a/b/c/d" := by decide
example : normalizeWorkspacePath "" = "" := by decide
example : normalizeWorkspacePath " sr c / x " = "sr c/x" := by decide
example : getFileNameFromPath "src/App.tsx" = "App.tsx" := by decide
example : getParentFolderPath "src/a/b.ts" = "src/a" := by decide
example : splitFileName "a.ts" = ("a", ".ts") := by decide
example : splitFileName ".env" = (".env", "") := by decide
example : splitFileName "ab" = ("ab", "") := by decide
example : splitFileName "a.b.c" = ("a.b", ".c") := by decide

/-! ## Lemmas about `dedupKeepFirst`, `sortPaths` and records -/

theorem dedupKeepFirstAux_mem {fuel : Nat} :
    ∀ {l : List String}, l.length ≤ fuel → ∀ {y : String},
      (y ∈ dedupKeepFirstAux fuel l ↔ y ∈ l) := by
  induction fuel with
  | zero =>
    intro l h y
    rw [Nat.le_zero, List.length_eq_zero] at h
    subst h
    simp [dedupKeepFirstAux]
  | succ fuel ih =>
    intro l h y
    cases l with
    | nil => simp [dedupKeepFirstAux]
    | cons x xs =>
      have hlen : (xs.filter (· ≠ x)).length ≤ fuel := by
        have := List.length_filter_le (· ≠ x) xs
        have hxs : xs.length ≤ fuel := Nat.le_of_succ_le_succ h
        omega
      simp only [dedupKeepFirstAux, List.mem_cons, ih hlen, List.mem_filter,
        decide_eq_true_eq]
      constructor
      · rintro (rfl | ⟨hy, _⟩)
        · exact Or.inl rfl
        · exact Or.inr hy
      · rintro (rfl | hy)
        · exact Or.inl rfl
        · by_cases hyx : y = x
          · exact Or.inl hyx
          · exact Or.inr ⟨hy, by simpa using hyx⟩

theorem dedupKeepFirst_mem {l : List String} {y : String} :
    y ∈ dedupKeepFirst l ↔ y ∈ l :=
  dedupKeepFirstAux_mem le_rfl

theorem dedupKeepFirstAux_nodup {fuel : Nat} :
    ∀ {l : List String}, l.length ≤ fuel → (dedupKeepFirstAux fuel l).Nodup := by
  induction fuel with
  | zero => intro l _; simp [dedupKeepFirstAux]
  | succ fuel ih =>
    intro l h
    cases l with
    | nil => simp [dedupKeepFirstAux]
    | cons x xs =>
      have hlen : (xs.filter (· ≠ x)).length ≤ fuel := by
        have := List.length_filter_le (· ≠ x) xs
        have hxs : xs.length ≤ fuel := Nat.le_of_succ_le_succ h
        omega
      refine List.nodup_cons.mpr ⟨?_, ih hlen⟩
      intro hx
      have := (dedupKeepFirstAux_mem hlen).mp hx
      simp at this

theorem dedupKeepFirst_nodup (l : List String) : (dedupKeepFirst l).Nodup :=
  dedupKeepFirstAux_nodup le_rfl

theorem sortPaths_perm (l : List String) : List.Perm (sortPaths l) l :=
  List.perm_insertionSort leCI l

theorem sortPaths_mem {l : List String} {y : String} : y ∈ sortPaths l ↔ y ∈ l :=
  (sortPaths_perm l).mem_iff

theorem sortPaths_pairwise (l : List String) : (sortPaths l).Pairwise leCI :=
  List.sorted_insertionSort leCI l

theorem sortPaths_nodup {l : List String} (h : l.Nodup) : (sortPaths l).Nodup :=
  ((sortPaths_perm l).nodup_iff).mpr h

theorem rfind_cons {α : Type} (kv : String × α) (t : List (String × α)) (k : String) :
    rfind (kv :: t) k = if kv.1 = k then some kv.2 else rfind t k := by
  by_cases h : kv.1 = k <;> simp [rfind, List.find?, h]

theorem rfind_eq_none_iff {α : Type} {r : List (String × α)} {k : String} :
    rfind r k = none ↔ k ∉ r.map (·.1) := by
  induction r with
  | nil => simp [rfind]
  | cons kv t ih =>
    rw [rfind_cons]
    by_cases h : kv.1 = k
    · simp [h]
    · simp [h, ih, Ne.symm h]

theorem rfind_ne_none_iff {α : Type} {r : List (String × α)} {k : String} :
    rfind r k ≠ none ↔ k ∈ rkeys r := by
  rw [ne_eq, rfind_eq_none_iff, not_not, rkeys, dedupKeepFirst_mem]

theorem rfind_rset_self {α : Type} (r : List (String × α)) (k : String) (v : α) :
    rfind (rset r k v) k = some v := by
  unfold rset
  split
  · rename_i h
    induction r with
    | nil => simp at h
    | cons kv rest ih =>
      by_cases hkv : kv.1 = k
      · simp [rfind_cons, hkv]
      · simp only [List.any_cons, Bool.or_eq_true, decide_eq_true_eq] at h
        rcases h with h | h
        · exact absurd h hkv
        · simpa [rfind_cons, hkv] using ih h
  · induction r with
    | nil => simp [rfind_cons]
    | cons kv rest ih =>
      rename_i h
      simp only [List.any_cons, Bool.or_eq_true, decide_eq_true_eq, not_or] at h
      simpa [rfind_cons, h.1] using ih (by simpa using h.2)

theorem rfind_map_subst {α : Type} (r : List (String × α)) {k k' : String} (v : α)
    (h : k' ≠ k) :
    rfind (r.map (fun kv => if kv.1 = k then (k, v) else kv)) k' = rfind r k' := by
  induction r with
  | nil => rfl
  | cons kv rest ih =>
    by_cases hkv : kv.1 = k
    · rw [List.map_cons, if_pos hkv, rfind_cons, rfind_cons, hkv]
      simp [Ne.symm h, ih]
    · rw [List.map_cons, if_neg hkv, rfind_cons, rfind_cons, ih]

theorem rfind_append_single {α : Type} (r : List (String × α)) {k k' : String} (v : α)
    (h : k' ≠ k) : rfind (r ++ [(k, v)]) k' = rfind r k' := by
  induction r with
  | nil => simp [rfind_cons, rfind, Ne.symm h]
  | cons kv rest ih => rw [List.cons_append, rfind_cons, rfind_cons, ih]

theorem rfind_rset_ne {α : Type} (r : List (String × α)) {k k' : String} (v : α)
    (h : k' ≠ k) : rfind (rset r k v) k' = rfind r k' := by
  unfold rset
  split
  · exact rfind_map_subst r v h
  · exact rfind_append_single r v h

theorem rfind_rerase_self {α : Type} (r : List (String × α)) (k : String) :
    rfind (rerase r k) k = none := by
  rw [rfind_eq_none_iff]
  intro h
  rcases List.mem_map.mp h with ⟨kv, hkv, hfst⟩
  rcases List.mem_filter.mp hkv with ⟨_, hne⟩
  simp [hfst] at hne

theorem rerase_cons {α : Type} (kv : String × α) (t : List (String × α)) (k : String) :
    rerase (kv :: t) k = if kv.1 = k then rerase t k else kv :: rerase t k := by
  by_cases h : kv.1 = k <;> simp [rerase, List.filter_cons, h]

theorem rfind_rerase_ne {α : Type} (r : List (String × α)) {k k' : String}
    (h : k' ≠ k) : rfind (rerase r k) k' = rfind r k' := by
  induction r with
  | nil => rfl
  | cons kv rest ih =>
    by_cases hkv : kv.1 = k
    · have h2 : kv.1 ≠ k' := by rw [hkv]; exact Ne.symm h
      rw [rerase_cons, if_pos hkv, rfind_cons, if_neg h2, ih]
    · rw [rerase_cons, if_neg hkv, rfind_cons, rfind_cons, ih]

/-! ## Characterization of `getGitChanges` (claim C4) -/

theorem resolveGitChangeType_some_cases {b w : Option String} {ty : GitChangeType}
    (h : resolveGitChangeType b w = some ty) : b ≠ none ∨ w ≠ none := by
  cases b <;> cases w <;> simp_all [resolveGitChangeType]

theorem map_filterMap_eq_filter {α β : Type} (g : β → α) (f : α → Option β)
    (hf : ∀ a b, f a = some b → g b = a) (l : List α) :
    (l.filterMap f).map g = l.filter (fun a => (f a).isSome) := by
  induction l with
  | nil => rfl
  | cons a l ih =>
    cases hfa : f a with
    | none => simp [List.filterMap_cons, hfa, ih]
    | some b => simp [List.filterMap_cons, hfa, ih, hf a b hfa]

/-- The union of base and working paths, in diff order. -/
def diffAllPaths (files : List File) (headTree : Tree) : List String :=
  sortPaths (dedupKeepFirst (rkeys headTree ++ rkeys (createTreeFromFiles files false)))

theorem diffAllPaths_nodup (files : List File) (headTree : Tree) :
    (diffAllPaths files headTree).Nodup :=
  sortPaths_nodup (dedupKeepFirst_nodup _)

theorem mem_getGitChanges_iff {files : List File} {headTree : Tree}
    {stagedPaths : List String} {c : GitChange} :
    c ∈ getGitChanges files headTree stagedPaths ↔
      resolveGitChangeType (rfind headTree c.path)
          (rfind (createTreeFromFiles files false) c.path) = some c.type ∧
      c.staged = ((stagedPaths.map normalizeWorkspacePath).filter (· ≠ "")).contains c.path := by
  unfold getGitChanges
  rw [List.mem_filterMap]
  constructor
  · rintro ⟨p, _, hp⟩
    rcases Option.map_eq_some'.mp hp with ⟨ty, hty, hc⟩
    cases hc
    exact ⟨hty, rfl⟩
  · rintro ⟨hty, hstaged⟩
    refine ⟨c.path, ?_, ?_⟩
    · show c.path ∈ diffAllPaths files headTree
      rw [diffAllPaths, sortPaths_mem, dedupKeepFirst_mem, List.mem_append]
      rcases resolveGitChangeType_some_cases hty with h | h
      · exact Or.inl (rfind_ne_none_iff.mp h)
      · exact Or.inr (rfind_ne_none_iff.mp h)
    · rw [hty]
      show some _ = some c
      congr 1
      cases c
      simp only at hstaged
      simp [hstaged]

theorem getGitChanges_map_path (files : List File) (headTree : Tree)
    (stagedPaths : List String) :
    (getGitChanges files headTree stagedPaths).map (·.path) =
      (diffAllPaths files headTree).filter (fun p =>
        (resolveGitChangeType (rfind headTree p) (rfind (createTreeFromFiles files false) p)).isSome) := by
  unfold getGitChanges
  rw [map_filterMap_eq_filter]
  · apply List.filter_congr
    intro p _
    cases resolveGitChangeType (rfind headTree p) (rfind (createTreeFromFiles files false) p) <;> simp
  · intro a b hab
    rcases Option.map_eq_some'.mp hab with ⟨ty, _, hb⟩
    cases hb
    rfl

theorem getGitChanges_paths_nodup (files : List File) (headTree : Tree)
    (stagedPaths : List String) :
    ((getGitChanges files headTree stagedPaths).map (·.path)).Nodup := by
  rw [getGitChanges_map_path]
  exact (diffAllPaths_nodup files headTree).filter _

theorem getGitChanges_paths_pairwise (files : List File) (headTree : Tree)
    (stagedPaths : List String) :
    ((getGitChanges files headTree stagedPaths).map (·.path)).Pairwise leCI := by
  rw [getGitChanges_map_path]
  exact (sortPaths_pairwise _).sublist (List.filter_sublist _)

theorem resolve_eq_added_iff {b w : Option String} :
    resolveGitChangeType b w = some .added ↔ b = none ∧ w ≠ none := by
  cases b <;> cases w
  · simp [resolveGitChangeType]
  · simp [resolveGitChangeType]
  · simp [resolveGitChangeType]
  · simp only [resolveGitChangeType]
    split <;> simp_all

theorem resolve_eq_deleted_iff {b w : Option String} :
    resolveGitChangeType b w = some .deleted ↔ b ≠ none ∧ w = none := by
  cases b <;> cases w
  · simp [resolveGitChangeType]
  · simp [resolveGitChangeType]
  · simp [resolveGitChangeType]
  · simp only [resolveGitChangeType]
    split <;> simp_all

theorem resolve_eq_modified_iff {b w : Option String} :
    resolveGitChangeType b w = some .modified ↔
      ∃ x y, b = some x ∧ w = some y ∧ x ≠ y := by
  cases b <;> cases w
  · simp [resolveGitChangeType]
  · simp [resolveGitChangeType]
  · simp [resolveGitChangeType]
  · simp only [resolveGitChangeType]
    split <;> simp_all

/-- C4: `getGitChanges` emits exactly one entry per differing path of the
union of base and working paths, in ascending case-insensitive order,
classified by presence/absence/content difference, with the staged flag
reflecting membership of the (normalized) staged set; a staged entry is
only ever reported for a path that actually differs. -/
theorem c4_diff_classification (files : List File) (headTree : Tree)
    (stagedPaths : List String) :
    (∀ c : GitChange, c ∈ getGitChanges files headTree stagedPaths ↔
        resolveGitChangeType (rfind headTree c.path)
            (rfind (createTreeFromFiles files false) c.path) = some c.type ∧
        c.staged = ((stagedPaths.map normalizeWorkspacePath).filter (· ≠ "")).contains c.path) ∧
    ((getGitChanges files headTree stagedPaths).map (·.path)).Nodup ∧
    ((getGitChanges files headTree stagedPaths).map (·.path)).Pairwise leCI ∧
    (∀ c ∈ getGitChanges files headTree stagedPaths,
      (c.type = .added ↔ rfind headTree c.path = none ∧
          rfind (createTreeFromFiles files false) c.path ≠ none) ∧
      (c.type = .deleted ↔ rfind headTree c.path ≠ none ∧
          rfind (createTreeFromFiles files false) c.path = none) ∧
      (c.type = .modified ↔ ∃ x y, rfind headTree c.path = some x ∧
          rfind (createTreeFromFiles files false) c.path = some y ∧ x ≠ y) ∧
      resolveGitChangeType (rfind headTree c.path)
          (rfind (createTreeFromFiles files false) c.path) ≠ none) := by
  refine ⟨fun _ => mem_getGitChanges_iff, getGitChanges_paths_nodup files headTree stagedPaths,
    getGitChanges_paths_pairwise files headTree stagedPaths, fun c hc => ?_⟩
  have hres := (mem_getGitChanges_iff.mp hc).1
  refine ⟨?_, ?_, ?_, by rw [hres]; exact Option.some_ne_none _⟩
  · constructor
    · intro hty; rw [hty] at hres; exact resolve_eq_added_iff.mp hres
    · intro hbw
      have := resolve_eq_added_iff.mpr hbw
      rw [hres] at this
      exact Option.some_inj.mp this
  · constructor
    · intro hty; rw [hty] at hres; exact resolve_eq_deleted_iff.mp hres
    · intro hbw
      have := resolve_eq_deleted_iff.mpr hbw
      rw [hres] at this
      exact Option.some_inj.mp this
  · constructor
    · intro hty; rw [hty] at hres; exact resolve_eq_modified_iff.mp hres
    · intro hbw
      have := resolve_eq_modified_iff.mpr hbw
      rw [hres] at this
      exact Option.some_inj.mp this

/-! ## Commit fold lemmas -/

theorem commitApplyChange_rfind_ne (w t : Tree) (c : GitChange) {p : String}
    (h : p ≠ c.path) : rfind (commitApplyChange w t c) p = rfind t p := by
  unfold commitApplyChange
  cases c.type
  · cases hw : rfind w c.path
    · rfl
    · exact rfind_rset_ne t _ h
  · cases hw : rfind w c.path
    · rfl
    · exact rfind_rset_ne t _ h
  · exact rfind_rerase_ne t h

theorem commitFold_rfind_not_mem (w : Tree) (l : List GitChange) (t : Tree) (p : String)
    (hp : ∀ c ∈ l, c.path ≠ p) :
    rfind (l.foldl (commitApplyChange w) t) p = rfind t p := by
  induction l generalizing t with
  | nil => rfl
  | cons c rest ih =>
    rw [List.foldl_cons, ih _ (fun d hd => hp d (List.mem_cons_of_mem _ hd)),
      commitApplyChange_rfind_ne w t c (Ne.symm (hp c (List.mem_cons_self _ _)))]

theorem commitFold_rfind_deleted (w : Tree) {c : GitChange} (hty : c.type = .deleted) :
    ∀ (l : List GitChange) (t : Tree), c ∈ l → (l.map (·.path)).Nodup →
      rfind (l.foldl (commitApplyChange w) t) c.path = none := by
  intro l
  induction l with
  | nil => intro t hc _; cases hc
  | cons d rest ih =>
    intro t hc hnd
    rw [List.foldl_cons]
    rw [List.map_cons, List.nodup_cons] at hnd
    rcases List.mem_cons.mp hc with rfl | hcr
    · have hrest : ∀ e ∈ rest, e.path ≠ c.path := by
        intro e he heq
        exact hnd.1 (heq ▸ List.mem_map_of_mem (·.path) he)
      rw [commitFold_rfind_not_mem w rest _ c.path hrest]
      simp only [commitApplyChange, hty]
      exact rfind_rerase_self t c.path
    · exact ih _ hcr hnd.2

theorem commitFold_rfind_upsert (w : Tree) {c : GitChange} {content : String}
    (hty : c.type ≠ .deleted) (hw : rfind w c.path = some content) :
    ∀ (l : List GitChange) (t : Tree), c ∈ l → (l.map (·.path)).Nodup →
      rfind (l.foldl (commitApplyChange w) t) c.path = some content := by
  intro l
  induction l with
  | nil => intro t hc _; cases hc
  | cons d rest ih =>
    intro t hc hnd
    rw [List.foldl_cons]
    rw [List.map_cons, List.nodup_cons] at hnd
    rcases List.mem_cons.mp hc with rfl | hcr
    · have hrest : ∀ e ∈ rest, e.path ≠ c.path := by
        intro e he heq
        exact hnd.1 (heq ▸ List.mem_map_of_mem (·.path) he)
      rw [commitFold_rfind_not_mem w rest _ c.path hrest]
      cases hty2 : c.type
      · simp only [commitApplyChange, hty2, hw]
        exact rfind_rset_self t c.path content
      · simp only [commitApplyChange, hty2, hw]
        exact rfind_rset_self t c.path content
      · exact absurd hty2 hty
    · exact ih _ hcr hnd.2

theorem commitGitChanges_branches_frame (s : FileStoreState) (message cid : String)
    (ts : Nat) {k : String} (hk : k ≠ s.gitCurrentBranch) :
    rfind ((commitGitChanges s message cid ts).2).gitBranches k = rfind s.gitBranches k := by
  by_cases h1 : jsTrim message = ""
  · simp [commitGitChanges, h1]
  · cases h2 : rfind s.gitBranches s.gitCurrentBranch with
    | none => simp [commitGitChanges, h1, h2]
    | some br =>
      by_cases h3 : (getGitChanges s.files br.tree s.gitStagedPaths).filter (·.staged) = []
      · simp [commitGitChanges, h1, h2, h3]
      · simp only [commitGitChanges, h1, h2, h3, if_false, if_neg h3]
        exact rfind_rset_ne _ _ hk

/-! ## Claim C1: successful commit -/

/-- C1: from a state whose current branch exists, with a non-empty trimmed
message and a non-empty effective staged set, `commitGitChanges` succeeds,
appends exactly one commit recording exactly the effective staged changes,
updates the branch tree by applying each staged change (`deleted` removes
the path, otherwise the working content is written), leaves other paths of
the tree untouched, clears the staged set, and the diff against the new
tree reports no change for any committed path. -/
theorem c1_commit_success (s : FileStoreState) (message cid : String) (ts : Nat)
    (br : GitBranchState)
    (hbr : rfind s.gitBranches s.gitCurrentBranch = some br)
    (hmsg : jsTrim message ≠ "")
    (hstaged : (getGitChanges s.files br.tree s.gitStagedPaths).filter (·.staged) ≠ []) :
    ∃ br' : GitBranchState,
      (commitGitChanges s message cid ts).1 = .ok ∧
      rfind ((commitGitChanges s message cid ts).2).gitBranches s.gitCurrentBranch = some br' ∧
      br'.commits = br.commits ++
        [{ id := cid, branch := s.gitCurrentBranch, message := jsTrim message, timestamp := ts,
           changes := ((getGitChanges s.files br.tree s.gitStagedPaths).filter (·.staged)).map
             (fun c => (c.path, c.type)) }] ∧
      (∀ c ∈ (getGitChanges s.files br.tree s.gitStagedPaths).filter (·.staged),
        rfind br'.tree c.path =
          if c.type = .deleted then none else rfind (createTreeFromFiles s.files false) c.path) ∧
      (∀ p : String,
        p ∉ ((getGitChanges s.files br.tree s.gitStagedPaths).filter (·.staged)).map (·.path) →
        rfind br'.tree p = rfind br.tree p) ∧
      ((commitGitChanges s message cid ts).2).gitStagedPaths = [] ∧
      (∀ c ∈ (getGitChanges s.files br.tree s.gitStagedPaths).filter (·.staged),
        ∀ gc ∈ getGitChanges s.files br'.tree [], gc.path ≠ c.path) := by
  have hnd : (((getGitChanges s.files br.tree s.gitStagedPaths).filter (·.staged)).map
      (·.path)).Nodup :=
    (getGitChanges_paths_nodup s.files br.tree s.gitStagedPaths).sublist
      (List.Sublist.map (fun c : GitChange => c.path)
        (List.filter_sublist (getGitChanges s.files br.tree s.gitStagedPaths)))
  have hw_of_mem : ∀ c ∈ (getGitChanges s.files br.tree s.gitStagedPaths).filter (·.staged),
      c.type ≠ .deleted → ∃ content, rfind (createTreeFromFiles s.files false) c.path = some content := by
    intro c hc hty
    have hmem := List.mem_of_mem_filter hc
    have hres := (mem_getGitChanges_iff.mp hmem).1
    cases hty2 : c.type
    · rw [hty2] at hres
      rcases (resolve_eq_added_iff.mp hres).2 with h
      cases hcontent : rfind (createTreeFromFiles s.files false) c.path
      · exact absurd hcontent h
      · exact ⟨_, rfl⟩
    · rw [hty2] at hres
      rcases resolve_eq_modified_iff.mp hres with ⟨x, y, _, hy, _⟩
      exact ⟨y, hy⟩
    · exact absurd hty2 hty
  refine ⟨⟨((getGitChanges s.files br.tree s.gitStagedPaths).filter (·.staged)).foldl
              (commitApplyChange (createTreeFromFiles s.files false)) br.tree,
            br.commits ++
              [{ id := cid, branch := s.gitCurrentBranch, message := jsTrim message,
                 timestamp := ts,
                 changes := ((getGitChanges s.files br.tree s.gitStagedPaths).filter
                     (·.staged)).map (fun c => (c.path, c.type)) }]⟩,
    ?_, ?_, rfl, ?_, ?_, ?_, ?_⟩
  · simp [commitGitChanges, hmsg, hbr, hstaged]
  · simp only [commitGitChanges, hmsg, hbr, if_neg hmsg, if_neg hstaged]
    exact rfind_rset_self _ _ _
  · intro c hc
    by_cases hty : c.type = .deleted
    · rw [if_pos hty]
      exact commitFold_rfind_deleted _ hty _ br.tree hc hnd
    · rw [if_neg hty]
      rcases hw_of_mem c hc hty with ⟨content, hcontent⟩
      rw [hcontent]
      exact commitFold_rfind_upsert _ hty hcontent _ br.tree hc hnd
  · intro p hp
    refine commitFold_rfind_not_mem _ _ _ _ ?_
    intro c hc heq
    exact hp (heq ▸ List.mem_map_of_mem (·.path) hc)
  · simp [commitGitChanges, hmsg, hbr, hstaged]
  · intro c hc gc hgc heq
    have hres := (mem_getGitChanges_iff.mp hgc).1
    rw [heq] at hres
    by_cases hty : c.type = .deleted
    · have hmem := List.mem_of_mem_filter hc
      have hresc := (mem_getGitChanges_iff.mp hmem).1
      rw [hty] at hresc
      have hwnone := (resolve_eq_deleted_iff.mp hresc).2
      rw [commitFold_rfind_deleted _ hty _ br.tree hc hnd, hwnone] at hres
      simp [resolveGitChangeType] at hres
    · rcases hw_of_mem c hc hty with ⟨content, hcontent⟩
      rw [commitFold_rfind_upsert _ hty hcontent _ br.tree hc hnd, hcontent] at hres
      simp [resolveGitChangeType] at hres

/-- A small concrete state used to witness the git theorems: the current
branch `main` holds `a.ts` at content `"1"`, the working tree has `a.ts`
edited to `"2"` plus a new `b.ts`, and `a.ts` is staged. -/
def demoState : FileStoreState :=
  { files := [createFile "1" "a.ts" "typescript" "2" "1",
              createFile "2" "b.ts" "typescript" "new" "new"]
    folders := []
    activeFileId := some "1"
    activeSelection := ""
    gitBranches := [("main", { tree := [("a.ts", "1")], commits := [] })]
    gitCurrentBranch := "main"
    gitStagedPaths := ["a.ts"] }

/-- Witness for C1 at `demoState`. -/
theorem c1_commit_success_witness :
    ∃ br' : GitBranchState,
      (commitGitChanges demoState "fix a" "c1" 7).1 = .ok ∧
      rfind ((commitGitChanges demoState "fix a" "c1" 7).2).gitBranches
          demoState.gitCurrentBranch = some br' ∧
      br'.commits = ({ tree := [("a.ts", "1")], commits := [] } : GitBranchState).commits ++
        [{ id := "c1", branch := demoState.gitCurrentBranch, message := jsTrim "fix a",
           timestamp := 7,
           changes := ((getGitChanges demoState.files [("a.ts", "1")]
              demoState.gitStagedPaths).filter (·.staged)).map (fun c => (c.path, c.type)) }] ∧
      (∀ c ∈ (getGitChanges demoState.files [("a.ts", "1")]
          demoState.gitStagedPaths).filter (·.staged),
        rfind br'.tree c.path =
          if c.type = .deleted then none
          else rfind (createTreeFromFiles demoState.files false) c.path) ∧
      (∀ p : String,
        p ∉ ((getGitChanges demoState.files [("a.ts", "1")]
            demoState.gitStagedPaths).filter (·.staged)).map (·.path) →
        rfind br'.tree p = rfind ([("a.ts", "1")] : Tree) p) ∧
      ((commitGitChanges demoState "fix a" "c1" 7).2).gitStagedPaths = [] ∧
      (∀ c ∈ (getGitChanges demoState.files [("a.ts", "1")]
          demoState.gitStagedPaths).filter (·.staged),
        ∀ gc ∈ getGitChanges demoState.files br'.tree [], gc.path ≠ c.path) :=
  c1_commit_success demoState "fix a" "c1" 7 { tree := [("a.ts", "1")], commits := [] }
    (by decide) (by decide) (by decide)

/-! ## Claim C2: snapshot isolation across branches -/

theorem createGitBranch_ok_inv {s : FileStoreState} {name : String} {s₁ : FileStoreState}
    (h : createGitBranch s name = (.ok, s₁)) :
    sanitizeBranchName name ≠ "" ∧
    rfind s.gitBranches (sanitizeBranchName name) = none ∧
    ∃ src, rfind s.gitBranches s.gitCurrentBranch = some src ∧
      s₁ = { s with gitBranches := rset s.gitBranches (sanitizeBranchName name) ⟨src.tree, src.commits⟩ } := by
  by_cases h1 : sanitizeBranchName name = ""
  · simp [createGitBranch, h1] at h
  · cases h2 : rfind s.gitBranches (sanitizeBranchName name) with
    | some b => simp [createGitBranch, h1, h2] at h
    | none =>
      cases h3 : rfind s.gitBranches s.gitCurrentBranch with
      | none => simp [createGitBranch, h1, h2, h3] at h
      | some src =>
        refine ⟨h1, rfl, src, rfl, ?_⟩
        simp only [createGitBranch, h1, h2, h3, if_neg h1, Prod.mk.injEq, true_and,
          if_false, ite_false] at h
        exact h.symm

/-- C2: after a successful `createGitBranch`, the new branch holds a copy of
the source branch's tree and commits; a subsequent successful commit on the
still-current source branch leaves the new branch's entry unchanged, and a
successful commit performed while the new branch is current leaves the
source branch's entry unchanged. -/
theorem c2_branch_isolation (s : FileStoreState) (name : String) (s₁ : FileStoreState)
    (hcreate : createGitBranch s name = (.ok, s₁))
    (m₁ c₁ : String) (t₁ : Nat) (_hok₁ : (commitGitChanges s₁ m₁ c₁ t₁).1 = .ok)
    (t : FileStoreState) (htb : t.gitBranches = s₁.gitBranches)
    (htc : t.gitCurrentBranch = sanitizeBranchName name)
    (m₂ c₂ : String) (t₂ : Nat) (_hok₂ : (commitGitChanges t m₂ c₂ t₂).1 = .ok) :
    (∃ src, rfind s.gitBranches s.gitCurrentBranch = some src ∧
      rfind s₁.gitBranches (sanitizeBranchName name) = some src) ∧
    rfind ((commitGitChanges s₁ m₁ c₁ t₁).2).gitBranches (sanitizeBranchName name) =
      rfind s₁.gitBranches (sanitizeBranchName name) ∧
    rfind ((commitGitChanges t m₂ c₂ t₂).2).gitBranches s.gitCurrentBranch =
      rfind s₁.gitBranches s.gitCurrentBranch := by
  obtain ⟨hn, hnone, src, hsrc, hs₁⟩ := createGitBranch_ok_inv hcreate
  have hne : sanitizeBranchName name ≠ s.gitCurrentBranch := by
    intro h
    rw [h, hsrc] at hnone
    cases hnone
  have hs₁cur : s₁.gitCurrentBranch = s.gitCurrentBranch := by rw [hs₁]
  have hs₁n : rfind s₁.gitBranches (sanitizeBranchName name) = some src := by
    rw [hs₁]
    exact rfind_rset_self s.gitBranches (sanitizeBranchName name) src
  refine ⟨⟨src, hsrc, hs₁n⟩, ?_, ?_⟩
  · exact commitGitChanges_branches_frame s₁ m₁ c₁ t₁ (by rw [hs₁cur]; exact hne)
  · rw [commitGitChanges_branches_frame t m₂ c₂ t₂
      (by rw [htc]; exact Ne.symm hne), htb]

def demoState₂ : FileStoreState :=
  { demoState with gitBranches := [("main", { tree := [("a.ts", "1")], commits := [] }),
                                   ("dev", { tree := [("a.ts", "1")], commits := [] })] }

def demoState₃ : FileStoreState := { demoState₂ with gitCurrentBranch := "dev" }

/-- Witness for C2: create `dev` from `main` in `demoState`, commit on each. -/
theorem c2_branch_isolation_witness :
    (∃ src, rfind demoState.gitBranches demoState.gitCurrentBranch = some src ∧
      rfind demoState₂.gitBranches (sanitizeBranchName "dev") = some src) ∧
    rfind ((commitGitChanges demoState₂ "m1" "i1" 1).2).gitBranches
        (sanitizeBranchName "dev") =
      rfind demoState₂.gitBranches (sanitizeBranchName "dev") ∧
    rfind ((commitGitChanges demoState₃ "m2" "i2" 2).2).gitBranches
        demoState.gitCurrentBranch =
      rfind demoState₂.gitBranches demoState.gitCurrentBranch :=
  c2_branch_isolation demoState "dev" demoState₂ (by decide) "m1" "i1" 1 (by decide)
    demoState₃ (by decide) (by decide) "m2" "i2" 2 (by decide)

/-! ## Claim C5: commit validation failures -/

/-- C5 (amended): with the current branch present, `commitGitChanges` fails
and leaves the state unchanged exactly when the trimmed message is empty or
the effective staged set is empty; in the latter case (with a non-empty
message) the error is the full sentence
"Stage at least one change before committing.". -/
theorem c5_commit_validation (s : FileStoreState) (message cid : String) (ts : Nat)
    (br : GitBranchState) (hbr : rfind s.gitBranches s.gitCurrentBranch = some br) :
    (((∃ e, (commitGitChanges s message cid ts).1 = .error e) ∧
        (commitGitChanges s message cid ts).2 = s) ↔
      (jsTrim message = "" ∨
        (getGitChanges s.files br.tree s.gitStagedPaths).filter (·.staged) = [])) ∧
    (jsTrim message ≠ "" →
      (getGitChanges s.files br.tree s.gitStagedPaths).filter (·.staged) = [] →
      (commitGitChanges s message cid ts).1 =
        .error "Stage at least one change before committing.") := by
  constructor
  · constructor
    · rintro ⟨⟨e, he⟩, _⟩
      by_cases h1 : jsTrim message = ""
      · exact Or.inl h1
      · by_cases h3 : (getGitChanges s.files br.tree s.gitStagedPaths).filter (·.staged) = []
        · exact Or.inr h3
        · have hok : (commitGitChanges s message cid ts).1 = .ok := by
            simp [commitGitChanges, h1, hbr, h3]
          rw [hok] at he
          cases he
    · intro h
      by_cases h1 : jsTrim message = ""
      · exact ⟨⟨"Commit message is required.", by simp [commitGitChanges, h1]⟩,
          by simp [commitGitChanges, h1]⟩
      · rcases h with h | h3
        · exact absurd h h1
        · exact ⟨⟨"Stage at least one change before committing.",
            by simp [commitGitChanges, h1, hbr, h3]⟩,
            by simp [commitGitChanges, h1, hbr, h3]⟩
  · intro h1 h3
    simp [commitGitChanges, h1, hbr, h3]

def emptyMainState : FileStoreState :=
  { files := []
    folders := []
    activeFileId := none
    activeSelection := ""
    gitBranches := [("main", { tree := [], commits := [] })]
    gitCurrentBranch := "main"
    gitStagedPaths := [] }

/-- C5 counterexample to the claim as stated: with a non-empty message and
no effective staged change, the commit fails, but the error message is the
full sentence "Stage at least one change before committing.", not the
string "stage at least one change" stated by the claim. -/
theorem c5_message_counterexample :
    rfind emptyMainState.gitBranches emptyMainState.gitCurrentBranch =
      some { tree := [], commits := [] } ∧
    jsTrim "msg" ≠ "" ∧
    (getGitChanges emptyMainState.files ([] : Tree)
      emptyMainState.gitStagedPaths).filter (·.staged) = [] ∧
    (commitGitChanges emptyMainState "msg" "c" 0).1 =
      .error "Stage at least one change before committing." ∧
    (commitGitChanges emptyMainState "msg" "c" 0).1 ≠
      .error "stage at least one change" := by
  decide

/-- Witness for C5 at `emptyMainState`. -/
theorem c5_commit_validation_witness :
    (((∃ e, (commitGitChanges emptyMainState "msg" "c" 0).1 = .error e) ∧
        (commitGitChanges emptyMainState "msg" "c" 0).2 = emptyMainState) ↔
      (jsTrim "msg" = "" ∨
        (getGitChanges emptyMainState.files ([] : Tree)
          emptyMainState.gitStagedPaths).filter (·.staged) = [])) ∧
    (jsTrim "msg" ≠ "" →
      (getGitChanges emptyMainState.files ([] : Tree)
        emptyMainState.gitStagedPaths).filter (·.staged) = [] →
      (commitGitChanges emptyMainState "msg" "c" 0).1 =
        .error "Stage at least one change before committing.") :=
  c5_commit_validation emptyMainState "msg" "c" 0 { tree := [], commits := [] } (by decide)

/-! ## Claim C3: branch switch blocked by pending changes -/

/-- C3: if the target name sanitizes to an existing branch different from
the current one and the diff against the current branch's tree is
non-empty, `switchGitBranch` fails with an error and leaves the whole
state (files, folders, active file, branches, current branch, staged
paths) unchanged. -/
theorem c3_switch_blocked (s : FileStoreState) (name : String) (idGen : Nat → String)
    (hexists : rfind s.gitBranches (sanitizeBranchName name) ≠ none)
    (hne : sanitizeBranchName name ≠ s.gitCurrentBranch)
    (hpending : getGitChanges s.files
      (((rfind s.gitBranches s.gitCurrentBranch).map (·.tree)).getD [])
      s.gitStagedPaths ≠ []) :
    (∃ e, (switchGitBranch s name idGen).1 = .error e) ∧
    (switchGitBranch s name idGen).2 = s := by
  by_cases h1 : sanitizeBranchName name = ""
  · exact ⟨⟨"Branch name is invalid.", by simp [switchGitBranch, h1]⟩,
      by simp [switchGitBranch, h1]⟩
  · cases h2 : rfind s.gitBranches (sanitizeBranchName name) with
    | none => exact absurd h2 hexists
    | some tb =>
      exact ⟨⟨"Commit or unstage changes before switching branches.",
        by simp [switchGitBranch, h1, h2, hne, hpending]⟩,
        by simp [switchGitBranch, h1, h2, hne, hpending]⟩

/-- Witness for C3: switching `demoState₂` to `dev` with pending changes. -/
theorem c3_switch_blocked_witness :
    (∃ e, (switchGitBranch demoState₂ "dev" natToString).1 = .error e) ∧
    (switchGitBranch demoState₂ "dev" natToString).2 = demoState₂ :=
  c3_switch_blocked demoState₂ "dev" natToString (by decide) (by decide) (by decide)

/-! ## Claim C10: renameFolder is a no-op when no folder matches -/

/-- C10: when no known folder (explicit or inferred from file paths) equals
the normalized source or lies under it, `renameFolder` returns the state
unchanged. -/
theorem c10_renameFolder_noop (s : FileStoreState) (fromPath toPath : String)
    (h : ∀ p ∈ mergeFolderPaths [s.folders, inferFolderPathsFromFiles s.files],
        ¬(p = normalizeWorkspacePath fromPath ∨
          strStartsWith p (normalizeWorkspacePath fromPath ++ "/") = true)) :
    renameFolder s fromPath toPath = s := by
  by_cases h1 : normalizeWorkspacePath fromPath = "" ∨ normalizeWorkspacePath toPath = "" ∨
      normalizeWorkspacePath fromPath = normalizeWorkspacePath toPath
  · simp [renameFolder, h1]
  · by_cases h2 : strStartsWith (normalizeWorkspacePath toPath)
        (normalizeWorkspacePath fromPath ++ "/") = true
    · simp [renameFolder, h1, h2]
    · have hany : (mergeFolderPaths [s.folders, inferFolderPathsFromFiles s.files]).any
          (fun path => path = normalizeWorkspacePath fromPath ||
            strStartsWith path (normalizeWorkspacePath fromPath ++ "/")) = false := by
        rw [List.any_eq_false]
        intro p hp
        have hp' := h p hp
        push_neg at hp'
        simp [hp'.1, hp'.2]
      simp [renameFolder, h1, h2, hany]

/-- Witness for C10 at `emptyMainState`. -/
theorem c10_renameFolder_noop_witness :
    renameFolder emptyMainState "src" "lib" = emptyMainState :=
  c10_renameFolder_noop emptyMainState "src" "lib" (by decide)

/-! ## Path normalization: structural lemmas about `splitSeg` -/

theorem splitSeg_ne_nil (cs : List Char) : splitSeg cs ≠ [] := by
  cases cs with
  | nil => simp [splitSeg]
  | cons c cs =>
    simp only [splitSeg]
    cases splitSeg cs with
    | nil => simp
    | cons s rest => by_cases hc : c = '/' <;> simp [hc]

theorem splitSeg_slash (cs : List Char) : splitSeg ('/' :: cs) = [] :: splitSeg cs := by
  simp only [splitSeg]
  cases h : splitSeg cs with
  | nil => exact absurd h (splitSeg_ne_nil cs)
  | cons t rest => simp

theorem splitSeg_cons_of_ne {c : Char} (hc : c ≠ '/') (cs : List Char) {t : List Char}
    {rest : List (List Char)} (h : splitSeg cs = t :: rest) :
    splitSeg (c :: cs) = (c :: t) :: rest := by
  simp only [splitSeg, h]
  simp [hc]

theorem splitSeg_no_slash {cs : List Char} (h : '/' ∉ cs) : splitSeg cs = [cs] := by
  induction cs with
  | nil => rfl
  | cons c cs ih =>
    have hc : c ≠ '/' := fun hcc => h (hcc ▸ List.mem_cons_self c cs)
    have hcs : '/' ∉ cs := fun hm => h (List.mem_cons_of_mem c hm)
    exact splitSeg_cons_of_ne hc cs (ih hcs)

theorem no_slash_of_mem_splitSeg : ∀ {cs s : List Char}, s ∈ splitSeg cs → '/' ∉ s := by
  intro cs
  induction cs with
  | nil =>
    intro s hs
    simp only [splitSeg, List.mem_singleton] at hs
    simp [hs]
  | cons c cs ih =>
    intro s hs
    by_cases hc : c = '/'
    · subst hc
      rw [splitSeg_slash] at hs
      rcases List.mem_cons.mp hs with rfl | hs
      · simp
      · exact ih hs
    · cases h : splitSeg cs with
      | nil => exact absurd h (splitSeg_ne_nil cs)
      | cons t rest =>
        rw [splitSeg_cons_of_ne hc cs h] at hs
        have ht : '/' ∉ t := ih (by rw [h]; exact List.mem_cons_self t rest)
        rcases List.mem_cons.mp hs with rfl | hs
        · intro hmem
          rcases List.mem_cons.mp hmem with h' | h'
          · exact hc h'.symm
          · exact ht h'
        · exact ih (by rw [h]; exact List.mem_cons_of_mem t hs)

theorem subset_of_mem_splitSeg : ∀ {cs s : List Char}, s ∈ splitSeg cs → ∀ c ∈ s, c ∈ cs := by
  intro cs
  induction cs with
  | nil =>
    intro s hs
    simp only [splitSeg, List.mem_singleton] at hs
    simp [hs]
  | cons a cs ih =>
    intro s hs c hcmem
    by_cases ha : a = '/'
    · subst ha
      rw [splitSeg_slash] at hs
      rcases List.mem_cons.mp hs with rfl | hs
      · cases hcmem
      · exact List.mem_cons_of_mem _ (ih hs c hcmem)
    · cases h : splitSeg cs with
      | nil => exact absurd h (splitSeg_ne_nil cs)
      | cons t rest =>
        rw [splitSeg_cons_of_ne ha cs h] at hs
        rcases List.mem_cons.mp hs with rfl | hs
        · rcases List.mem_cons.mp hcmem with rfl | hc'
          · exact List.mem_cons_self c cs
          · refine List.mem_cons_of_mem _ (ih ?_ c hc')
            rw [h]
            exact List.mem_cons_self t rest
        · refine List.mem_cons_of_mem _ (ih ?_ c hcmem)
          rw [h]
          exact List.mem_cons_of_mem t hs

theorem splitSeg_append_slash : ∀ (x y : List Char),
    splitSeg (x ++ '/' :: y) = splitSeg x ++ splitSeg y := by
  intro x y
  induction x with
  | nil => rw [List.nil_append, splitSeg_slash]; rfl
  | cons c x ih =>
    by_cases hc : c = '/'
    · subst hc
      rw [List.cons_append, splitSeg_slash, splitSeg_slash, ih, List.cons_append]
    · cases h : splitSeg x with
      | nil => exact absurd h (splitSeg_ne_nil x)
      | cons t rest =>
        have h' : splitSeg (x ++ '/' :: y) = t :: (rest ++ splitSeg y) := by
          rw [ih, h, List.cons_append]
        rw [List.cons_append, splitSeg_cons_of_ne hc _ h', splitSeg_cons_of_ne hc _ h,
          List.cons_append]

theorem exists_mem_splitSeg_of_mem : ∀ {cs : List Char} {c : Char}, c ∈ cs → c ≠ '/' →
    ∃ s ∈ splitSeg cs, c ∈ s := by
  intro cs
  induction cs with
  | nil => intro c hc; cases hc
  | cons a cs ih =>
    intro c hc hslash
    by_cases ha : a = '/'
    · subst ha
      rcases List.mem_cons.mp hc with rfl | hc'
      · exact absurd rfl hslash
      · rcases ih hc' hslash with ⟨s, hs, hcs⟩
        exact ⟨s, by rw [splitSeg_slash]; exact List.mem_cons_of_mem _ hs, hcs⟩
    · cases h : splitSeg cs with
      | nil => exact absurd h (splitSeg_ne_nil cs)
      | cons t rest =>
        rcases List.mem_cons.mp hc with rfl | hc'
        · exact ⟨c :: t, by rw [splitSeg_cons_of_ne ha cs h]; exact List.mem_cons_self _ _,
            List.mem_cons_self c t⟩
        · rcases ih hc' hslash with ⟨s, hs, hcs⟩
          rw [h] at hs
          rcases List.mem_cons.mp hs with rfl | hs'
          · exact ⟨a :: s, by rw [splitSeg_cons_of_ne ha cs h]; exact List.mem_cons_self _ _,
              List.mem_cons_of_mem a hcs⟩
          · exact ⟨s, by rw [splitSeg_cons_of_ne ha cs h]; exact List.mem_cons_of_mem _ hs', hcs⟩

/-! ## Structural lemmas about `trimChars` -/

theorem trimChars_subset {cs : List Char} {c : Char} (h : c ∈ trimChars cs) : c ∈ cs := by
  unfold trimChars at h
  rw [List.mem_reverse] at h
  have h1 := (List.dropWhile_suffix Char.isWhitespace).subset h
  rw [List.mem_reverse] at h1
  exact (List.dropWhile_suffix Char.isWhitespace).subset h1

theorem mem_trimChars_of_not_ws : ∀ {cs : List Char} {c : Char}, c ∈ cs →
    c.isWhitespace = false → c ∈ trimChars cs := by
  have key : ∀ (l : List Char) (c : Char), c ∈ l → c.isWhitespace = false →
      c ∈ l.dropWhile Char.isWhitespace := by
    intro l
    induction l with
    | nil => intro c hc; cases hc
    | cons a l ih =>
      intro c hc hws
      rw [List.dropWhile_cons]
      split
      · rcases List.mem_cons.mp hc with rfl | hc'
        · simp_all
        · exact ih c hc' hws
      · exact hc
  intro cs c hc hws
  unfold trimChars
  rw [List.mem_reverse]
  refine key _ c ?_ hws
  rw [List.mem_reverse]
  exact key _ c hc hws

theorem getLast?_trimChars_not_ws {cs : List Char} {c : Char}
    (h : (trimChars cs).getLast? = some c) : c.isWhitespace = false := by
  unfold trimChars at h
  rw [List.getLast?_reverse] at h
  have h2 := List.head?_dropWhile_not Char.isWhitespace (cs.dropWhile Char.isWhitespace).reverse
  rw [h] at h2
  simpa using h2

theorem head?_trimChars_not_ws {cs : List Char} {c : Char}
    (h : (trimChars cs).head? = some c) : c.isWhitespace = false := by
  unfold trimChars at h
  rw [List.head?_reverse] at h
  rcases hr : (cs.dropWhile Char.isWhitespace).reverse.dropWhile Char.isWhitespace
    with _ | ⟨a, r⟩
  · rw [hr] at h; cases h
  · rw [hr] at h
    have hsuf := List.dropWhile_suffix (p := Char.isWhitespace)
      (l := (cs.dropWhile Char.isWhitespace).reverse)
    rw [hr] at hsuf
    rcases hsuf with ⟨t, ht⟩
    have hXlast : (cs.dropWhile Char.isWhitespace).reverse.getLast? = some c := by
      rw [← ht, List.getLast?_append_of_ne_nil t (by simp)]
      exact h
    rw [List.getLast?_reverse] at hXlast
    have h2 := List.head?_dropWhile_not Char.isWhitespace cs
    rw [hXlast] at h2
    simpa using h2

theorem dropWhile_eq_self_of_head {l : List Char} {p : Char → Bool}
    (h : ∀ c, l.head? = some c → p c = false) : l.dropWhile p = l := by
  cases l with
  | nil => rfl
  | cons a l =>
    rw [List.dropWhile_cons, if_neg]
    simp [h a rfl]

theorem trimChars_eq_self {cs : List Char}
    (h₁ : ∀ c, cs.head? = some c → c.isWhitespace = false)
    (h₂ : ∀ c, cs.getLast? = some c → c.isWhitespace = false) :
    trimChars cs = cs := by
  unfold trimChars
  rw [dropWhile_eq_self_of_head h₁,
    dropWhile_eq_self_of_head (fun c hc => h₂ c (by rwa [List.head?_reverse] at hc))]
  exact List.reverse_reverse cs

theorem trimChars_idem (cs : List Char) : trimChars (trimChars cs) = trimChars cs :=
  trimChars_eq_self (fun _ h => head?_trimChars_not_ws h)
    (fun _ h => getLast?_trimChars_not_ws h)


/-! ## Structural lemmas about `List.intercalate` -/

theorem intercalate_single (sep x : List Char) : List.intercalate sep [x] = x := by
  simp [List.intercalate]

theorem intercalate_cons₂ (sep x y : List Char) (l : List (List Char)) :
    List.intercalate sep (x :: y :: l) = x ++ sep ++ List.intercalate sep (y :: l) := by
  simp [List.intercalate, List.intersperse]

theorem mem_intercalate : ∀ {L : List (List Char)} {c : Char},
    c ∈ List.intercalate ['/'] L → c = '/' ∨ ∃ l ∈ L, c ∈ l := by
  intro L
  induction L with
  | nil => intro c hc; cases hc
  | cons x L ih =>
    intro c hc
    cases L with
    | nil =>
      rw [intercalate_single] at hc
      exact Or.inr ⟨x, List.mem_singleton_self x, hc⟩
    | cons y L' =>
      rw [intercalate_cons₂] at hc
      rcases List.mem_append.mp hc with hc | hc
      · rcases List.mem_append.mp hc with hc | hc
        · exact Or.inr ⟨x, List.mem_cons_self _ _, hc⟩
        · exact Or.inl (List.mem_singleton.mp hc)
      · rcases ih hc with h | ⟨l, hl, hcl⟩
        · exact Or.inl h
        · exact Or.inr ⟨l, List.mem_cons_of_mem _ hl, hcl⟩

theorem intercalate_ne_nil {L : List (List Char)} (hL : L ≠ [])
    (h : ∀ l ∈ L, l ≠ []) : List.intercalate ['/'] L ≠ [] := by
  cases L with
  | nil => exact absurd rfl hL
  | cons x L =>
    cases L with
    | nil =>
      rw [intercalate_single]
      exact h x (List.mem_singleton_self x)
    | cons y L' =>
      rw [intercalate_cons₂]
      intro habs
      rcases List.append_eq_nil.mp habs with ⟨h1, _⟩
      rcases List.append_eq_nil.mp h1 with ⟨hx, _⟩
      exact h x (List.mem_cons_self _ _) hx

theorem head?_intercalate {x : List Char} (L : List (List Char)) (hx : x ≠ []) :
    (List.intercalate ['/'] (x :: L)).head? = x.head? := by
  cases L with
  | nil => rw [intercalate_single]
  | cons y L' =>
    rw [intercalate_cons₂, List.append_assoc]
    exact List.head?_append_of_ne_nil x hx

theorem getLast?_intercalate : ∀ {L : List (List Char)} {x : List Char},
    (∀ l ∈ L, l ≠ []) → L.getLast? = some x →
    (List.intercalate ['/'] L).getLast? = x.getLast? := by
  intro L
  induction L with
  | nil => intro x _ hx; cases hx
  | cons y L ih =>
    intro x h hx
    cases L with
    | nil =>
      rw [List.getLast?_singleton] at hx
      cases hx
      rw [intercalate_single]
    | cons z L' =>
      have hx' : (z :: L').getLast? = some x := by
        rwa [List.getLast?_cons_cons] at hx
      have hli : List.intercalate ['/'] (z :: L') ≠ [] :=
        intercalate_ne_nil (by simp) (fun l hl => h l (List.mem_cons_of_mem y hl))
      rw [intercalate_cons₂, List.getLast?_append_of_ne_nil _ hli]
      exact ih (fun l hl => h l (List.mem_cons_of_mem y hl)) hx'

/-! ## No double slash -/

/-- `true` when the character list has no two adjacent slashes. -/
def noDoubleSlash : List Char → Bool
  | a :: b :: rest => (!(a = '/' && b = '/')) && noDoubleSlash (b :: rest)
  | _ => true

theorem noDoubleSlash_tail {a : Char} {l : List Char}
    (h : noDoubleSlash (a :: l) = true) : noDoubleSlash l = true := by
  cases l with
  | nil => rfl
  | cons b r =>
    simp only [noDoubleSlash, Bool.and_eq_true] at h
    exact h.2

theorem noDoubleSlash_cons_of {c : Char} {l : List Char} (hc : c ≠ '/')
    (h : noDoubleSlash l = true) : noDoubleSlash (c :: l) = true := by
  cases l with
  | nil => rfl
  | cons b r =>
    simp only [noDoubleSlash, Bool.and_eq_true]
    exact ⟨by simp [hc], h⟩

theorem noDoubleSlash_of_no_slash : ∀ {l : List Char}, '/' ∉ l → noDoubleSlash l = true := by
  intro l
  induction l with
  | nil => intro _; rfl
  | cons c r ih =>
    intro h
    refine noDoubleSlash_cons_of (fun hc => h (hc ▸ List.mem_cons_self c r)) ?_
    exact ih (fun hm => h (List.mem_cons_of_mem c hm))

theorem noDoubleSlash_append_slash : ∀ {x t : List Char}, '/' ∉ x →
    t.head? ≠ some '/' → noDoubleSlash t = true →
    noDoubleSlash (x ++ '/' :: t) = true := by
  intro x
  induction x with
  | nil =>
    intro t _ hhead ht
    cases t with
    | nil => rfl
    | cons a r =>
      simp only [List.nil_append, noDoubleSlash, Bool.and_eq_true]
      refine ⟨?_, ht⟩
      have ha : a ≠ '/' := by
        intro haa
        exact hhead (by simp [haa])
      simp [ha]
  | cons c x' ih =>
    intro t hx hhead ht
    have hc : c ≠ '/' := fun hcc => hx (hcc ▸ List.mem_cons_self c x')
    have hx' : '/' ∉ x' := fun hm => hx (List.mem_cons_of_mem c hm)
    rw [List.cons_append]
    exact noDoubleSlash_cons_of hc (ih hx' hhead ht)

theorem not_infix_of_noDoubleSlash : ∀ {l : List Char}, noDoubleSlash l = true →
    ¬ (['/', '/'] <:+: l) := by
  intro l
  induction l with
  | nil =>
    intro _ habs
    have := habs.length_le
    simp at this
  | cons a rest ih =>
    intro h habs
    rcases habs with ⟨s, t, hst⟩
    cases s with
    | nil =>
      simp only [List.nil_append] at hst
      rw [← hst] at h
      simp [noDoubleSlash] at h
    | cons b s' =>
      rw [List.cons_append, List.cons_append, List.cons.injEq] at hst
      exact ih (noDoubleSlash_tail (hst.1 ▸ h)) ⟨s', t, hst.2⟩

/-! ## The normalized segment list -/

/-- The kept (trimmed, non-empty) segments of `normalizeChars`. -/
def normSegs (cs : List Char) : List (List Char) :=
  ((splitSeg (cs.map bslash2slash)).map trimChars).filter (· ≠ [])

theorem normalizeChars_eq (cs : List Char) :
    normalizeChars cs = List.intercalate ['/'] (normSegs cs) := rfl

theorem bslash2slash_ne_bslash (c : Char) : bslash2slash c ≠ '\\' := by
  unfold bslash2slash
  split
  · decide
  · assumption

theorem bslash_not_mem_map (cs : List Char) : '\\' ∉ cs.map bslash2slash := by
  intro h
  rcases List.mem_map.mp h with ⟨c, _, hc⟩
  exact bslash2slash_ne_bslash c hc

/-- Every kept segment is non-empty, slash-free, backslash-free and
trim-fixed. -/
theorem normSegs_good {cs : List Char} {s : List Char} (hs : s ∈ normSegs cs) :
    s ≠ [] ∧ '/' ∉ s ∧ '\\' ∉ s ∧ trimChars s = s := by
  rcases List.mem_filter.mp hs with ⟨hmem, hne⟩
  rcases List.mem_map.mp hmem with ⟨seg, hseg, htrim⟩
  subst htrim
  refine ⟨by simpa using hne, ?_, ?_, trimChars_idem seg⟩
  · intro h
    exact no_slash_of_mem_splitSeg hseg (trimChars_subset h)
  · intro h
    exact bslash_not_mem_map cs
      (subset_of_mem_splitSeg hseg '\\' (trimChars_subset h))

theorem map_eq_self_of {α : Type} {f : α → α} : ∀ {l : List α},
    (∀ c ∈ l, f c = c) → l.map f = l := by
  intro l
  induction l with
  | nil => intro _; rfl
  | cons a l ih =>
    intro h
    rw [List.map_cons, h a (List.mem_cons_self a l),
      ih (fun c hc => h c (List.mem_cons_of_mem a hc))]

theorem splitSeg_intercalate : ∀ {L : List (List Char)},
    (∀ l ∈ L, '/' ∉ l) → L ≠ [] →
    splitSeg (List.intercalate ['/'] L) = L := by
  intro L
  induction L with
  | nil => intro _ h; exact absurd rfl h
  | cons x L' ih =>
    intro h _
    cases L' with
    | nil =>
      rw [intercalate_single]
      exact splitSeg_no_slash (h x (List.mem_singleton_self x))
    | cons y L'' =>
      have : x ++ ['/'] ++ List.intercalate ['/'] (y :: L'') =
          x ++ '/' :: List.intercalate ['/'] (y :: L'') := by
        rw [List.append_assoc]
        rfl
      rw [intercalate_cons₂, this, splitSeg_append_slash,
        splitSeg_no_slash (h x (List.mem_cons_self _ _)),
        ih (fun l hl => h l (List.mem_cons_of_mem x hl)) (by simp)]
      rfl

/-- Applying `normalizeChars` to an intercalation of good segments is the
identity. -/
theorem normalizeChars_of_goodSegs {L : List (List Char)}
    (h : ∀ l ∈ L, l ≠ [] ∧ '/' ∉ l ∧ '\\' ∉ l ∧ trimChars l = l) :
    normalizeChars (List.intercalate ['/'] L) = List.intercalate ['/'] L := by
  cases L with
  | nil => rfl
  | cons x L' =>
    have hmap : (List.intercalate ['/'] (x :: L')).map bslash2slash =
        List.intercalate ['/'] (x :: L') := by
      refine map_eq_self_of ?_
      intro c hc
      unfold bslash2slash
      split
      · rename_i hbs
        subst hbs
        rcases mem_intercalate hc with h' | ⟨l, hl, hcl⟩
        · cases h'
        · exact absurd hcl (h l hl).2.2.1
      · rfl
    unfold normalizeChars
    rw [hmap, splitSeg_intercalate (fun l hl => (h l hl).2.1) (by simp),
      map_eq_self_of (fun l hl => (h l hl).2.2.2), List.filter_eq_self.mpr]
    intro a ha
    simpa using (h a ha).1

theorem normalizeChars_idem (cs : List Char) :
    normalizeChars (normalizeChars cs) = normalizeChars cs := by
  rw [normalizeChars_eq cs]
  exact normalizeChars_of_goodSegs (fun _ hl => normSegs_good hl)

theorem normalizeWorkspacePath_idem (s : String) :
    normalizeWorkspacePath (normalizeWorkspacePath s) = normalizeWorkspacePath s :=
  congrArg String.mk (normalizeChars_idem s.data)

theorem mem_of_head?Eq {l : List Char} {c : Char} (h : l.head? = some c) : c ∈ l := by
  cases l with
  | nil => cases h
  | cons a l =>
    simp only [List.head?_cons, Option.some.injEq] at h
    exact h ▸ List.mem_cons_self a l

theorem mem_of_getLast?Eq : ∀ {l : List Char} {c : Char}, l.getLast? = some c → c ∈ l := by
  intro l
  induction l with
  | nil => intro c h; cases h
  | cons a l ih =>
    intro c h
    cases l with
    | nil =>
      rw [List.getLast?_singleton] at h
      cases h
      exact List.mem_cons_self _ _
    | cons b l' =>
      rw [List.getLast?_cons_cons] at h
      exact List.mem_cons_of_mem a (ih h)

theorem noDoubleSlash_intercalate : ∀ {L : List (List Char)},
    (∀ l ∈ L, l ≠ [] ∧ '/' ∉ l) → noDoubleSlash (List.intercalate ['/'] L) = true := by
  intro L
  induction L with
  | nil => intro _; rfl
  | cons x L' ih =>
    intro h
    cases L' with
    | nil =>
      rw [intercalate_single]
      exact noDoubleSlash_of_no_slash (h x (List.mem_singleton_self x)).2
    | cons y L'' =>
      have hshape : x ++ ['/'] ++ List.intercalate ['/'] (y :: L'') =
          x ++ '/' :: List.intercalate ['/'] (y :: L'') := by
        rw [List.append_assoc]
        rfl
      rw [intercalate_cons₂, hshape]
      refine noDoubleSlash_append_slash (h x (List.mem_cons_self _ _)).2 ?_
        (ih (fun l hl => h l (List.mem_cons_of_mem x hl)))
      have hy := h y (List.mem_cons_of_mem x (List.mem_cons_self y L''))
      rw [head?_intercalate L'' hy.1]
      intro habs
      exact hy.2 (mem_of_head?Eq habs)

theorem normalize_no_bslash (s : String) : '\\' ∉ (normalizeWorkspacePath s).data := by
  intro h
  rcases mem_intercalate h with h' | ⟨l, hl, hcl⟩
  · exact absurd h' (by decide)
  · exact (normSegs_good hl).2.2.1 hcl

/-- C9: `normalizeWorkspacePath` is idempotent and its output contains no
backslash, no `"//"` substring, and no leading or trailing slash. -/
theorem c9_normalize_wellformed (s : String) :
    normalizeWorkspacePath (normalizeWorkspacePath s) = normalizeWorkspacePath s ∧
    '\\' ∉ (normalizeWorkspacePath s).data ∧
    ¬ (['/', '/'] <:+: (normalizeWorkspacePath s).data) ∧
    (normalizeWorkspacePath s).data.head? ≠ some '/' ∧
    (normalizeWorkspacePath s).data.getLast? ≠ some '/' := by
  have hdata : (normalizeWorkspacePath s).data = List.intercalate ['/'] (normSegs s.data) := rfl
  have hgood : ∀ l ∈ normSegs s.data, l ≠ [] ∧ '/' ∉ l ∧ '\\' ∉ l ∧ trimChars l = l :=
    fun _ hl => normSegs_good hl
  refine ⟨normalizeWorkspacePath_idem s, normalize_no_bslash s, ?_, ?_, ?_⟩
  · rw [hdata]
    exact not_infix_of_noDoubleSlash
      (noDoubleSlash_intercalate (fun l hl => ⟨(hgood l hl).1, (hgood l hl).2.1⟩))
  · rw [hdata]
    cases hns : normSegs s.data with
    | nil => simp [List.intercalate]
    | cons x L' =>
      have hx := normSegs_good (by rw [hns]; exact List.mem_cons_self x L')
      rw [head?_intercalate L' hx.1]
      intro habs
      exact hx.2.1 (mem_of_head?Eq habs)
  · rw [hdata]
    cases hns : normSegs s.data with
    | nil => simp [List.intercalate]
    | cons x L' =>
      have hne : x :: L' ≠ [] := by simp
      have hlast : (x :: L').getLast? = some ((x :: L').getLast hne) := by
        rw [List.getLast?_eq_getLast _ hne]
      have hmem : (x :: L').getLast hne ∈ x :: L' := List.getLast_mem hne
      have hgood' := normSegs_good (by rw [hns]; exact hmem)
      rw [getLast?_intercalate
        (fun l hl => (normSegs_good (by rw [hns]; exact hl)).1) hlast]
      intro habs
      exact hgood'.2.1 (mem_of_getLast?Eq habs)

/-! ## Decimal printing: fuel stability, characters, injectivity -/

theorem natToStringAux_stable : ∀ {n : Nat} (f₁ f₂ : Nat), n < f₁ → n < f₂ →
    natToStringAux f₁ n = natToStringAux f₂ n := by
  intro n
  induction n using Nat.strong_induction_on with
  | _ n ih =>
    intro f₁ f₂ h₁ h₂
    cases f₁ with
    | zero => omega
    | succ f₁ =>
      cases f₂ with
      | zero => omega
      | succ f₂ =>
        by_cases h10 : n < 10
        · simp [natToStringAux, h10]
        · have hdiv : n / 10 < n := Nat.div_lt_self (by omega) (by omega)
          simp only [natToStringAux, if_neg h10]
          rw [ih (n / 10) hdiv f₁ f₂ (by omega) (by omega)]

theorem natToStringAux_ne_nil {f n : Nat} (h : n < f) : natToStringAux f n ≠ [] := by
  cases f with
  | zero => omega
  | succ f => by_cases h10 : n < 10 <;> simp [natToStringAux, h10]

theorem digitChar_good {m : Nat} (hm : m < 10) :
    (Nat.digitChar m).isWhitespace = false ∧ Nat.digitChar m ≠ '/' ∧
    Nat.digitChar m ≠ '\\' ∧ Nat.digitChar m ≠ '.' := by
  interval_cases m <;> decide

theorem natToStringAux_chars_good : ∀ {n : Nat}, ∀ {f : Nat}, n < f →
    ∀ c ∈ natToStringAux f n,
    c.isWhitespace = false ∧ c ≠ '/' ∧ c ≠ '\\' ∧ c ≠ '.' := by
  intro n
  induction n using Nat.strong_induction_on with
  | _ n ih =>
    intro f h c hc
    cases f with
    | zero => omega
    | succ f =>
      by_cases h10 : n < 10
      · simp only [natToStringAux, if_pos h10, List.mem_singleton] at hc
        exact hc ▸ digitChar_good h10
      · simp only [natToStringAux, if_neg h10, List.mem_append, List.mem_singleton] at hc
        rcases hc with hc | hc
        · have hdiv : n / 10 < n := Nat.div_lt_self (by omega) (by omega)
          exact ih (n / 10) hdiv (by omega : n / 10 < f) c hc
        · exact hc ▸ digitChar_good (Nat.mod_lt n (by omega))

theorem digitChar_inj {m k : Nat} (hm : m < 10) (hk : k < 10)
    (h : Nat.digitChar m = Nat.digitChar k) : m = k := by
  interval_cases m <;> interval_cases k <;> revert h <;> decide

theorem natToStringAux_inj : ∀ {n m f g : Nat}, n < f → m < g →
    natToStringAux f n = natToStringAux g m → n = m := by
  intro n
  induction n using Nat.strong_induction_on with
  | _ n ih =>
    intro m f g hf hg heq
    cases f with
    | zero => omega
    | succ f =>
      cases g with
      | zero => omega
      | succ g =>
        by_cases hn10 : n < 10 <;> by_cases hm10 : m < 10
        · simp only [natToStringAux, if_pos hn10, if_pos hm10, List.cons.injEq] at heq
          exact digitChar_inj hn10 hm10 heq.1
        · exfalso
          simp only [natToStringAux, if_pos hn10, if_neg hm10] at heq
          have hlen := congrArg List.length heq
          have hdiv : m / 10 < m := Nat.div_lt_self (by omega) (by omega)
          have hpos : 0 < (natToStringAux g (m / 10)).length :=
            List.length_pos.mpr (natToStringAux_ne_nil (by omega))
          simp only [List.length_cons, List.length_append, List.length_nil] at hlen
          omega
        · exfalso
          simp only [natToStringAux, if_neg hn10, if_pos hm10] at heq
          have hlen := congrArg List.length heq
          have hdiv : n / 10 < n := Nat.div_lt_self (by omega) (by omega)
          have hpos : 0 < (natToStringAux f (n / 10)).length :=
            List.length_pos.mpr (natToStringAux_ne_nil (by omega))
          simp only [List.length_cons, List.length_append, List.length_nil] at hlen
          omega
        · simp only [natToStringAux, if_neg hn10, if_neg hm10] at heq
          obtain ⟨h1, h2⟩ := List.append_inj' heq rfl
          have hmod : n % 10 = m % 10 :=
            digitChar_inj (Nat.mod_lt n (by omega)) (Nat.mod_lt m (by omega))
              (by simpa using h2)
          have hdivlt : n / 10 < n := Nat.div_lt_self (by omega) (by omega)
          have hdiv : n / 10 = m / 10 :=
            ih (n / 10) hdivlt (by omega : n / 10 < f) (by
              have : m / 10 < m := Nat.div_lt_self (by omega) (by omega)
              omega : m / 10 < g) h1
          omega

theorem natToString_inj {n m : Nat} (h : natToString n = natToString m) : n = m :=
  natToStringAux_inj (Nat.lt_succ_self n) (Nat.lt_succ_self m) (congrArg String.data h)

theorem natToString_ne_nil (n : Nat) : (natToString n).data ≠ [] :=
  natToStringAux_ne_nil (Nat.lt_succ_self n)

theorem natToString_chars_good {n : Nat} :
    ∀ c ∈ (natToString n).data,
    c.isWhitespace = false ∧ c ≠ '/' ∧ c ≠ '\\' ∧ c ≠ '.' :=
  natToStringAux_chars_good (Nat.lt_succ_self n)

/-! ## Decomposition of normal paths (for `ensureUniquePath`) -/

theorem normal_data_eq {q : String} (hq : normalizeWorkspacePath q = q) :
    q.data = List.intercalate ['/'] (normSegs q.data) := by
  conv_lhs => rw [← hq]
  rfl

theorem eq_empty_of_data_nil {s : String} (h : s.data = []) : s = "" := by
  cases s with
  | mk l =>
    cases h
    rfl

theorem normSegs_ne_nil_of_ne {q : String} (hq : normalizeWorkspacePath q = q)
    (hne : q ≠ "") : normSegs q.data ≠ [] := by
  intro h
  apply hne
  have hd := normal_data_eq hq
  rw [h] at hd
  exact eq_empty_of_data_nil (by simpa [List.intercalate] using hd)

theorem splitSeg_normal {q : String} (hq : normalizeWorkspacePath q = q)
    (hne : q ≠ "") : splitSeg q.data = normSegs q.data := by
  conv_lhs => rw [normal_data_eq hq]
  exact splitSeg_intercalate (fun l hl => (normSegs_good hl).2.1)
    (normSegs_ne_nil_of_ne hq hne)

theorem fileName_data_of_normal {q : String} (hq : normalizeWorkspacePath q = q) :
    (getFileNameFromPath q).data = (splitSeg q.data).getLastD q.data := by
  have h0 : getFileNameFromPath q = String.mk
      ((splitSeg (normalizeWorkspacePath q).data).getLastD (normalizeWorkspacePath q).data) := rfl
  rw [h0, hq]

theorem parent_data_of_normal {q : String} (hq : normalizeWorkspacePath q = q) :
    (getParentFolderPath q).data =
      List.intercalate ['/'] (splitSeg q.data).dropLast := by
  have h0 : getParentFolderPath q = String.mk
      (List.intercalate ['/'] (splitSeg (normalizeWorkspacePath q).data).dropLast) := rfl
  rw [h0, hq]

theorem intercalate_append_singleton : ∀ (init : List (List Char)) (l : List Char),
    List.intercalate ['/'] (init ++ [l]) =
      (if init = [] then [] else List.intercalate ['/'] init ++ ['/']) ++ l := by
  intro init
  induction init with
  | nil => intro l; simp [intercalate_single]
  | cons x init' ih =>
    intro l
    cases init' with
    | nil => simp [intercalate_cons₂, intercalate_single, List.append_assoc]
    | cons y init'' =>
      simp only [List.cons_append] at ih ⊢
      rw [intercalate_cons₂, ih l, intercalate_cons₂]
      simp [List.append_assoc]

theorem splitFileName_append (name : String) :
    (splitFileName name).1.data ++ (splitFileName name).2.data = name.data := by
  unfold splitFileName
  rcases h : lastDotAux name.data with _ | j
  · simp
  · cases j with
    | zero => simp
    | succ j => simp [List.take_append_drop]

/-- The data of a normal non-empty path splits as parent-prefix plus the
base and extension of its file name. -/
theorem normal_decomp {q : String} (hq : normalizeWorkspacePath q = q) (hne : q ≠ "") :
    q.data = (if getParentFolderPath q = "" then [] else (getParentFolderPath q).data ++ ['/']) ++
      ((splitFileName (getFileNameFromPath q)).1.data ++
        (splitFileName (getFileNameFromPath q)).2.data) ∧
    (getFileNameFromPath q).data = (normSegs q.data).getLastD [] ∧
    (getParentFolderPath q = "" ↔ (normSegs q.data).dropLast = []) := by
  have hsegs := normSegs_ne_nil_of_ne hq hne
  have hsplit := splitSeg_normal hq hne
  have hlastD : (splitSeg q.data).getLastD q.data = (normSegs q.data).getLastD [] := by
    rw [hsplit]
    cases hn : normSegs q.data with
    | nil => exact absurd hn hsegs
    | cons a l =>
      rw [List.getLastD_eq_getLast?, List.getLastD_eq_getLast?,
        List.getLast?_eq_getLast _ (by simp)]
      rfl
  have hfile : (getFileNameFromPath q).data = (normSegs q.data).getLastD [] := by
    rw [fileName_data_of_normal hq, hlastD]
  have hparent : (getParentFolderPath q).data =
      List.intercalate ['/'] (normSegs q.data).dropLast := by
    rw [parent_data_of_normal hq, hsplit]
  have hparent_iff : getParentFolderPath q = "" ↔ (normSegs q.data).dropLast = [] := by
    constructor
    · intro h
      by_contra hd
      have hneq : List.intercalate ['/'] (normSegs q.data).dropLast ≠ [] := by
        refine intercalate_ne_nil hd ?_
        intro l hl
        exact (normSegs_good ((List.dropLast_sublist (normSegs q.data)).subset hl)).1
      rw [← hparent, h] at hneq
      exact hneq rfl
    · intro h
      refine eq_empty_of_data_nil ?_
      rw [hparent, h]
      rfl
  refine ⟨?_, hfile, hparent_iff⟩
  rw [splitFileName_append, hfile]
  have hconcat : normSegs q.data =
      (normSegs q.data).dropLast ++ [(normSegs q.data).getLast hsegs] :=
    (List.dropLast_append_getLast hsegs).symm
  have hlast : (normSegs q.data).getLastD [] = (normSegs q.data).getLast hsegs := by
    rw [List.getLastD_eq_getLast?, List.getLast?_eq_getLast _ hsegs]
    rfl
  rw [hlast]
  conv_lhs => rw [normal_data_eq hq, hconcat]
  rw [intercalate_append_singleton]
  by_cases hd : (normSegs q.data).dropLast = []
  · rw [if_pos hd, if_pos (hparent_iff.mpr hd)]
  · rw [if_neg hd, if_neg (fun h => hd (hparent_iff.mp h)), hparent]

/-! ## Candidate decomposition and `lastDotAux` characterization -/

theorem euCandidate_data (parent base ext : String) (i : Nat) :
    (euCandidate parent base ext i).data =
      (if parent = "" then [] else parent.data ++ ['/']) ++
        (base.data ++ '-' :: ((natToString i).data ++ ext.data)) := by
  have hdash : ("-" : String).data = ['-'] := rfl
  have hslash : ("/" : String).data = ['/'] := rfl
  unfold euCandidate
  split <;> simp [String.data_append, hdash, hslash, List.append_assoc]

theorem lastDotAux_eq_none_iff : ∀ {cs : List Char}, lastDotAux cs = none ↔ '.' ∉ cs := by
  intro cs
  induction cs with
  | nil => simp [lastDotAux]
  | cons c cs ih =>
    simp only [lastDotAux]
    cases h : lastDotAux cs with
    | some j =>
      have : '.' ∈ cs := by
        by_contra hh
        rw [ih.mpr hh] at h
        cases h
      simp [this]
    | none =>
      have hnotin : '.' ∉ cs := ih.mp h
      by_cases hc : c = '.'
      · subst hc
        simp
      · simp [hc, Ne.symm hc, hnotin]

theorem lastDotAux_append_no_dot {ys : List Char} (xs : List Char) (h : '.' ∉ ys) :
    lastDotAux (xs ++ ys) = lastDotAux xs := by
  induction xs with
  | nil =>
    rw [List.nil_append, lastDotAux_eq_none_iff.mpr h]
    rfl
  | cons c xs ih =>
    show (match lastDotAux (xs ++ ys) with
          | some j => some (j + 1)
          | none => if c = '.' then some 0 else none) =
        (match lastDotAux xs with
          | some j => some (j + 1)
          | none => if c = '.' then some 0 else none)
    rw [ih]

theorem lastDotAux_append_last (xs rest : List Char) (h : '.' ∉ rest) :
    lastDotAux (xs ++ '.' :: rest) = some xs.length := by
  induction xs with
  | nil =>
    show (match lastDotAux rest with
          | some j => some (j + 1)
          | none => if '.' = '.' then some 0 else none) = some 0
    rw [lastDotAux_eq_none_iff.mpr h]
    simp
  | cons c xs ih =>
    show (match lastDotAux (xs ++ '.' :: rest) with
          | some j => some (j + 1)
          | none => if c = '.' then some 0 else none) = some (xs.length + 1)
    rw [ih]

theorem lastDotAux_spec : ∀ {cs : List Char} {j : Nat}, lastDotAux cs = some j →
    cs.drop j = '.' :: cs.drop (j + 1) ∧ '.' ∉ cs.drop (j + 1) := by
  intro cs
  induction cs with
  | nil => intro j h; cases h
  | cons c cs ih =>
    intro j h
    simp only [lastDotAux] at h
    cases hcs : lastDotAux cs with
    | some k =>
      rw [hcs] at h
      cases h
      simpa using ih hcs
    | none =>
      rw [hcs] at h
      by_cases hc : c = '.'
      · rw [if_pos hc] at h
        cases h
        subst hc
        refine ⟨rfl, ?_⟩
        simpa using lastDotAux_eq_none_iff.mp hcs
      · rw [if_neg hc] at h
        cases h

/-! ## `splitFileName` computation lemmas -/

theorem splitFileName_of_dotfree_suffix {xs ys : List Char} (hys : '.' ∉ ys)
    (hxs : lastDotAux xs = none ∨ lastDotAux xs = some 0) :
    splitFileName (String.mk (xs ++ ys)) = (String.mk (xs ++ ys), "") := by
  unfold splitFileName
  rw [show (String.mk (xs ++ ys)).data = xs ++ ys from rfl,
    lastDotAux_append_no_dot xs hys]
  rcases hxs with h | h <;> rw [h]

theorem splitFileName_of_last_dot {xs rest : List Char} (h : '.' ∉ rest) (hxs : xs ≠ []) :
    splitFileName (String.mk (xs ++ '.' :: rest)) =
      (String.mk xs, String.mk ('.' :: rest)) := by
  unfold splitFileName
  rw [show (String.mk (xs ++ '.' :: rest)).data = xs ++ '.' :: rest from rfl,
    lastDotAux_append_last xs rest h]
  cases hxs' : xs with
  | nil => exact absurd hxs' hxs
  | cons a xs' =>
    subst hxs'
    simp only [List.length_cons]
    rw [show ((a :: xs' ++ '.' :: rest).take (xs'.length + 1)) =
        ((a :: xs') ++ '.' :: rest).take (a :: xs').length from rfl,
      List.take_left,
      show ((a :: xs' ++ '.' :: rest).drop (xs'.length + 1)) =
        ((a :: xs') ++ '.' :: rest).drop (a :: xs').length from rfl,
      List.drop_left]

theorem splitFileName_base_ne_nil {name : String} (hn : name.data ≠ []) :
    (splitFileName name).1.data ≠ [] := by
  unfold splitFileName
  rcases h : lastDotAux name.data with _ | j
  · simpa using hn
  · cases j with
    | zero => simpa using hn
    | succ j =>
      simp only
      intro habs
      rw [List.take_eq_nil_iff] at habs
      rcases habs with h0 | h0
      · cases h0
      · exact hn h0

theorem splitFileName_base_head? (name : String) :
    (splitFileName name).1.data.head? = name.data.head? := by
  unfold splitFileName
  rcases h : lastDotAux name.data with _ | j
  · rfl
  · cases j with
    | zero => rfl
    | succ j =>
      simp only
      cases hd : name.data with
      | nil => rfl
      | cons a l => simp

/-- The extension (per `splitFileName`) of a path's file name. -/
def extOf (p : String) : String := (splitFileName (getFileNameFromPath p)).2

theorem getFileNameFromPath_normalize (p : String) :
    getFileNameFromPath (normalizeWorkspacePath p) = getFileNameFromPath p := by
  have h1 : getFileNameFromPath (normalizeWorkspacePath p) = String.mk
      ((splitSeg (normalizeWorkspacePath (normalizeWorkspacePath p)).data).getLastD
        (normalizeWorkspacePath (normalizeWorkspacePath p)).data) := rfl
  rw [h1, normalizeWorkspacePath_idem]
  rfl

theorem fileName_good {q : String} (hq : normalizeWorkspacePath q = q) (hne : q ≠ "") :
    (getFileNameFromPath q).data ≠ [] ∧ '/' ∉ (getFileNameFromPath q).data ∧
    '\\' ∉ (getFileNameFromPath q).data ∧
    trimChars (getFileNameFromPath q).data = (getFileNameFromPath q).data := by
  obtain ⟨_, hfile, _⟩ := normal_decomp hq hne
  have hsegs := normSegs_ne_nil_of_ne hq hne
  have hmem : (normSegs q.data).getLastD [] ∈ normSegs q.data := by
    rw [List.getLastD_eq_getLast?, List.getLast?_eq_getLast _ hsegs]
    simp only [Option.getD_some]
    exact List.getLast_mem hsegs
  rw [hfile]
  exact normSegs_good hmem

theorem candName_data (base ext : String) (i : Nat) :
    (base ++ "-" ++ natToString i ++ ext).data =
      base.data ++ ['-'] ++ (natToString i).data ++ ext.data := by
  simp only [String.data_append]

theorem candName_good {name : String} (hne : name.data ≠ []) (hsl : '/' ∉ name.data)
    (hbs : '\\' ∉ name.data) (htr : trimChars name.data = name.data) (i : Nat) :
    ((splitFileName name).1 ++ "-" ++ natToString i ++ (splitFileName name).2).data ≠ [] ∧
    '/' ∉ ((splitFileName name).1 ++ "-" ++ natToString i ++ (splitFileName name).2).data ∧
    '\\' ∉ ((splitFileName name).1 ++ "-" ++ natToString i ++ (splitFileName name).2).data ∧
    trimChars ((splitFileName name).1 ++ "-" ++ natToString i ++ (splitFileName name).2).data =
      ((splitFileName name).1 ++ "-" ++ natToString i ++ (splitFileName name).2).data := by
  have hdata := candName_data (splitFileName name).1 (splitFileName name).2 i
  have hsub_base : ∀ c ∈ (splitFileName name).1.data, c ∈ name.data := by
    intro c hc
    rw [← splitFileName_append name]
    exact List.mem_append_left _ hc
  have hsub_ext : ∀ c ∈ (splitFileName name).2.data, c ∈ name.data := by
    intro c hc
    rw [← splitFileName_append name]
    exact List.mem_append_right _ hc
  have hbase_ne := splitFileName_base_ne_nil hne
  have hchar : ∀ c ∈ ((splitFileName name).1 ++ "-" ++ natToString i ++
      (splitFileName name).2).data,
      c ∈ name.data ∨ c = '-' ∨ c ∈ (natToString i).data := by
    intro c hc
    rw [hdata] at hc
    rcases List.mem_append.mp hc with hc | hc
    · rcases List.mem_append.mp hc with hc | hc
      · rcases List.mem_append.mp hc with hc | hc
        · exact Or.inl (hsub_base c hc)
        · exact Or.inr (Or.inl (List.mem_singleton.mp hc))
      · exact Or.inr (Or.inr hc)
    · exact Or.inl (hsub_ext c hc)
  refine ⟨?_, ?_, ?_, ?_⟩
  · rw [hdata]
    simp
  · intro h
    rcases hchar '/' h with h' | h' | h'
    · exact hsl h'
    · exact absurd h' (by decide)
    · exact (natToString_chars_good '/' h').2.1 rfl
  · intro h
    rcases hchar '\\' h with h' | h' | h'
    · exact hbs h'
    · exact absurd h' (by decide)
    · exact (natToString_chars_good '\\' h').2.2.1 rfl
  · refine trimChars_eq_self ?_ ?_
    · intro c hc
      rw [hdata] at hc
      have hX1 : (splitFileName name).1.data ++ ['-'] ≠ [] := by simp
      have hX2 : ((splitFileName name).1.data ++ ['-']) ++ (natToString i).data ≠ [] := by
        simp
      rw [List.head?_append_of_ne_nil _ hX2, List.head?_append_of_ne_nil _ hX1,
        List.head?_append_of_ne_nil _ hbase_ne, splitFileName_base_head? name] at hc
      exact head?_trimChars_not_ws (by rw [htr]; exact hc)
    · intro c hc
      rw [hdata] at hc
      by_cases hext : (splitFileName name).2.data = []
      · rw [hext, List.append_nil,
          List.getLast?_append_of_ne_nil _ (natToString_ne_nil i)] at hc
        exact (natToString_chars_good c (mem_of_getLast?Eq hc)).1
      · rw [List.getLast?_append_of_ne_nil _ hext] at hc
        have hname : name.data.getLast? = some c := by
          rw [← splitFileName_append name, List.getLast?_append_of_ne_nil _ hext]
          exact hc
        exact getLast?_trimChars_not_ws (by rw [htr]; exact hname)

theorem normalize_single_seg {cand : String} (hne : cand.data ≠ []) (hsl : '/' ∉ cand.data)
    (hbs : '\\' ∉ cand.data) (htr : trimChars cand.data = cand.data) :
    normalizeWorkspacePath cand = cand ∧ getFileNameFromPath cand = cand := by
  have hmap : cand.data.map bslash2slash = cand.data :=
    map_eq_self_of (fun c hc => by
      unfold bslash2slash
      split
      · rename_i hcb
        exact absurd (hcb ▸ hc) hbs
      · rfl)
  have hnorm : normalizeChars cand.data = cand.data := by
    unfold normalizeChars
    rw [hmap, splitSeg_no_slash hsl]
    simp only [List.map_cons, List.map_nil, htr]
    rw [List.filter_cons, if_pos (by simpa using hne)]
    exact intercalate_single ['/'] cand.data
  have hN : normalizeWorkspacePath cand = cand := congrArg String.mk hnorm
  refine ⟨hN, ?_⟩
  have h0 : getFileNameFromPath cand = String.mk
      ((splitSeg (normalizeWorkspacePath cand).data).getLastD
        (normalizeWorkspacePath cand).data) := rfl
  rw [h0, hN, splitSeg_no_slash hsl]
  rfl

theorem data_inj {s t : String} (h : s.data = t.data) : s = t := by
  cases s
  cases t
  cases h
  rfl

theorem normalize_parent_seg {parent cand : String}
    (hp : normalizeWorkspacePath parent = parent) (hpne : parent ≠ "")
    (hne : cand.data ≠ []) (hsl : '/' ∉ cand.data) (hbs : '\\' ∉ cand.data)
    (htr : trimChars cand.data = cand.data) :
    normalizeWorkspacePath (parent ++ "/" ++ cand) = parent ++ "/" ++ cand ∧
    getFileNameFromPath (parent ++ "/" ++ cand) = cand := by
  have hdata : (parent ++ "/" ++ cand).data = parent.data ++ '/' :: cand.data := by
    simp only [String.data_append]
    rw [List.append_assoc]
    rfl
  have hpbs : '\\' ∉ parent.data := by
    rw [← hp]
    exact normalize_no_bslash parent
  have hmap : (parent.data ++ '/' :: cand.data).map bslash2slash =
      parent.data ++ '/' :: cand.data :=
    map_eq_self_of (fun c hc => by
      unfold bslash2slash
      split
      · rename_i hcb
        subst hcb
        rcases List.mem_append.mp hc with h' | h'
        · exact absurd h' hpbs
        · rcases List.mem_cons.mp h' with h'' | h''
          · exact absurd h''.symm (by decide)
          · exact absurd h'' hbs
      · rfl)
  have hsegs : splitSeg (parent.data ++ '/' :: cand.data) =
      normSegs parent.data ++ [cand.data] := by
    rw [splitSeg_append_slash, splitSeg_normal hp hpne, splitSeg_no_slash hsl]
  have hnorm : normalizeChars (parent.data ++ '/' :: cand.data) =
      parent.data ++ '/' :: cand.data := by
    unfold normalizeChars
    rw [hmap, hsegs, List.map_append,
      map_eq_self_of (fun l hl => (normSegs_good hl).2.2.2)]
    simp only [List.map_cons, List.map_nil, htr]
    rw [List.filter_append,
      List.filter_eq_self.mpr (fun l hl => by simpa using (normSegs_good hl).1),
      List.filter_cons, if_pos (by simpa using hne), List.filter_nil,
      intercalate_append_singleton, if_neg (normSegs_ne_nil_of_ne hp hpne),
      ← normal_data_eq hp, List.append_assoc]
    rfl
  have hN : normalizeWorkspacePath (parent ++ "/" ++ cand) = parent ++ "/" ++ cand := by
    refine data_inj ?_
    show normalizeChars (parent ++ "/" ++ cand).data = (parent ++ "/" ++ cand).data
    rw [hdata, hnorm]
  refine ⟨hN, ?_⟩
  have h0 : getFileNameFromPath (parent ++ "/" ++ cand) = String.mk
      ((splitSeg (normalizeWorkspacePath (parent ++ "/" ++ cand)).data).getLastD
        (normalizeWorkspacePath (parent ++ "/" ++ cand)).data) := rfl
  rw [h0, hN, hdata, hsegs, List.getLastD_eq_getLast?, List.getLast?_concat]
  rfl

theorem parent_normal {q : String} (hq : normalizeWorkspacePath q = q) (hne : q ≠ "") :
    normalizeWorkspacePath (getParentFolderPath q) = getParentFolderPath q := by
  have hpd := parent_data_of_normal hq
  rw [splitSeg_normal hq hne] at hpd
  refine data_inj ?_
  show normalizeChars (getParentFolderPath q).data = (getParentFolderPath q).data
  rw [hpd]
  exact normalizeChars_of_goodSegs
    (fun l hl => normSegs_good ((List.dropLast_sublist _).subset hl))

theorem extOf_euCandidate {q : String} (hq : normalizeWorkspacePath q = q) (hne : q ≠ "")
    (i : Nat) :
    extOf (euCandidate (getParentFolderPath q) (splitFileName (getFileNameFromPath q)).1
      (splitFileName (getFileNameFromPath q)).2 i) = extOf q := by
  obtain ⟨hfn_ne, hfn_sl, hfn_bs, hfn_tr⟩ := fileName_good hq hne
  obtain ⟨hc_ne, hc_sl, hc_bs, hc_tr⟩ := candName_good hfn_ne hfn_sl hfn_bs hfn_tr i
  have hfile : getFileNameFromPath (euCandidate (getParentFolderPath q)
      (splitFileName (getFileNameFromPath q)).1 (splitFileName (getFileNameFromPath q)).2 i) =
      (splitFileName (getFileNameFromPath q)).1 ++ "-" ++ natToString i ++
        (splitFileName (getFileNameFromPath q)).2 := by
    unfold euCandidate
    split
    · exact (normalize_single_seg hc_ne hc_sl hc_bs hc_tr).2
    · rename_i hpne
      exact (normalize_parent_seg (parent_normal hq hne) hpne hc_ne hc_sl hc_bs hc_tr).2
  unfold extOf
  rw [hfile]
  have hcd := candName_data (splitFileName (getFileNameFromPath q)).1
    (splitFileName (getFileNameFromPath q)).2 i
  rcases hld : lastDotAux (getFileNameFromPath q).data with _ | j
  · have hsf : splitFileName (getFileNameFromPath q) = (getFileNameFromPath q, "") := by
      unfold splitFileName
      rw [hld]
    have hnd : '.' ∉ '-' :: (natToString i).data := by
      intro h
      rcases List.mem_cons.mp h with h' | h'
      · exact absurd h'.symm (by decide)
      · exact (natToString_chars_good '.' h').2.2.2 rfl
    have hshape : ((splitFileName (getFileNameFromPath q)).1 ++ "-" ++ natToString i ++
        (splitFileName (getFileNameFromPath q)).2) =
        String.mk ((getFileNameFromPath q).data ++ '-' :: (natToString i).data) := by
      refine data_inj ?_
      rw [hcd, hsf]
      show (getFileNameFromPath q).data ++ ['-'] ++ (natToString i).data ++
          ("" : String).data = _
      simp [List.append_assoc]
    rw [hshape, splitFileName_of_dotfree_suffix hnd (Or.inl hld), hsf]
  · cases j with
    | zero =>
      have hsf : splitFileName (getFileNameFromPath q) = (getFileNameFromPath q, "") := by
        unfold splitFileName
        rw [hld]
      have hnd : '.' ∉ '-' :: (natToString i).data := by
        intro h
        rcases List.mem_cons.mp h with h' | h'
        · exact absurd h'.symm (by decide)
        · exact (natToString_chars_good '.' h').2.2.2 rfl
      have hshape : ((splitFileName (getFileNameFromPath q)).1 ++ "-" ++ natToString i ++
          (splitFileName (getFileNameFromPath q)).2) =
          String.mk ((getFileNameFromPath q).data ++ '-' :: (natToString i).data) := by
        refine data_inj ?_
        rw [hcd, hsf]
        show (getFileNameFromPath q).data ++ ['-'] ++ (natToString i).data ++
            ("" : String).data = _
        simp [List.append_assoc]
      rw [hshape, splitFileName_of_dotfree_suffix hnd (Or.inr hld), hsf]
    | succ j =>
      have hsf : splitFileName (getFileNameFromPath q) =
          (String.mk ((getFileNameFromPath q).data.take (j + 1)),
           String.mk ((getFileNameFromPath q).data.drop (j + 1))) := by
        unfold splitFileName
        rw [hld]
      obtain ⟨hdropEq, hdropFree⟩ := lastDotAux_spec hld
      have hshape : ((splitFileName (getFileNameFromPath q)).1 ++ "-" ++ natToString i ++
          (splitFileName (getFileNameFromPath q)).2) =
          String.mk (((getFileNameFromPath q).data.take (j + 1) ++
            '-' :: (natToString i).data) ++ '.' :: (getFileNameFromPath q).data.drop (j + 2)) := by
        refine data_inj ?_
        rw [hcd, hsf]
        show (getFileNameFromPath q).data.take (j + 1) ++ ['-'] ++ (natToString i).data ++
            (getFileNameFromPath q).data.drop (j + 1) = _
        rw [hdropEq]
        simp [List.append_assoc]
      rw [hshape, splitFileName_of_last_dot hdropFree (by simp), hsf]
      exact congrArg String.mk hdropEq.symm

/-! ## Claim C8: `ensureUniquePath` -/

/-- The `i`-th candidate tried by `ensureUniquePath`: the normalized path
itself at `i = 0`, the suffixed names afterwards. -/
def euCandidateFull (p : String) (i : Nat) : String :=
  if i = 0 then normalizeWorkspacePath p
  else
    euCandidate (getParentFolderPath (normalizeWorkspacePath p))
      (splitFileName (getFileNameFromPath (normalizeWorkspacePath p))).1
      (splitFileName (getFileNameFromPath (normalizeWorkspacePath p))).2 i

theorem ensureUniquePath_eq_of_free {p : String} {hasPath : String → Bool}
    (hnorm : normalizeWorkspacePath p ≠ "")
    (hfree : hasPath (normalizeWorkspacePath p) = false) :
    ensureUniquePath p hasPath = normalizeWorkspacePath p := by
  simp only [ensureUniquePath]
  rw [if_neg hnorm, if_pos (by simp [hfree])]

theorem ensureUniquePath_eq_of_find_some {p : String} {hasPath : String → Bool} {i : Nat}
    (hnorm : normalizeWorkspacePath p ≠ "")
    (htaken : hasPath (normalizeWorkspacePath p) = true)
    (hfind : (List.range' 1 999).find? (fun k => !hasPath (euCandidate
      (getParentFolderPath (normalizeWorkspacePath p))
      (splitFileName (getFileNameFromPath (normalizeWorkspacePath p))).1
      (splitFileName (getFileNameFromPath (normalizeWorkspacePath p))).2 k)) = some i) :
    ensureUniquePath p hasPath =
      euCandidate (getParentFolderPath (normalizeWorkspacePath p))
        (splitFileName (getFileNameFromPath (normalizeWorkspacePath p))).1
        (splitFileName (getFileNameFromPath (normalizeWorkspacePath p))).2 i := by
  simp only [ensureUniquePath]
  rw [if_neg hnorm, if_neg (by simp [htaken]), hfind]

theorem ensureUniquePath_eq_of_find_none {p : String} {hasPath : String → Bool}
    (hnorm : normalizeWorkspacePath p ≠ "")
    (htaken : hasPath (normalizeWorkspacePath p) = true)
    (hfind : (List.range' 1 999).find? (fun k => !hasPath (euCandidate
      (getParentFolderPath (normalizeWorkspacePath p))
      (splitFileName (getFileNameFromPath (normalizeWorkspacePath p))).1
      (splitFileName (getFileNameFromPath (normalizeWorkspacePath p))).2 k)) = none) :
    ensureUniquePath p hasPath = normalizeWorkspacePath p := by
  simp only [ensureUniquePath]
  rw [if_neg hnorm, if_neg (by simp [htaken]), hfind]

theorem find?_range'_eq_some {pred : Nat → Bool} : ∀ (a n i : Nat), a ≤ i → i < a + n →
    pred i = true → (∀ j, a ≤ j → j < i → pred j = false) →
    (List.range' a n).find? pred = some i := by
  intro a n
  induction n generalizing a with
  | zero => intro i h1 h2 _ _; omega
  | succ n ih =>
    intro i h1 h2 hp hmin
    show List.find? pred (a :: List.range' (a + 1) n) = some i
    by_cases ha : a = i
    · subst ha
      rw [List.find?_cons_of_pos _ hp]
    · have hlt : a < i := by omega
      rw [List.find?_cons_of_neg _ (by simp [hmin a le_rfl hlt])]
      exact ih (a + 1) i (by omega) (by omega) hp (fun j hj1 hj2 => hmin j (by omega) hj2)

/-- C8: when some candidate among the normalized path and the 999 suffixed
names is free, `ensureUniquePath` returns the first free one, the returned
path is free, and its extension equals the input's extension; when all 1000
candidates are taken it returns the normalized path unchanged. -/
theorem c8_ensureUniquePath_spec (p : String) (hasPath : String → Bool)
    (hnorm : normalizeWorkspacePath p ≠ "") :
    (∀ i, i ≤ 999 → hasPath (euCandidateFull p i) = false →
      (∀ j, j < i → hasPath (euCandidateFull p j) = true) →
      ensureUniquePath p hasPath = euCandidateFull p i ∧
      hasPath (ensureUniquePath p hasPath) = false ∧
      extOf (ensureUniquePath p hasPath) = extOf p) ∧
    ((∀ i, i ≤ 999 → hasPath (euCandidateFull p i) = true) →
      ensureUniquePath p hasPath = normalizeWorkspacePath p) := by
  have hqN : normalizeWorkspacePath (normalizeWorkspacePath p) = normalizeWorkspacePath p :=
    normalizeWorkspacePath_idem p
  have hext0 : extOf (normalizeWorkspacePath p) = extOf p := by
    unfold extOf
    rw [getFileNameFromPath_normalize]
  constructor
  · intro i hi hfree hmin
    cases i with
    | zero =>
      have hfree' : hasPath (normalizeWorkspacePath p) = false := by
        simpa [euCandidateFull] using hfree
      have hres := ensureUniquePath_eq_of_free hnorm hfree'
      exact ⟨by rw [hres]; simp [euCandidateFull], by rw [hres]; exact hfree',
        by rw [hres]; exact hext0⟩
    | succ i =>
      have htaken : hasPath (normalizeWorkspacePath p) = true := by
        simpa [euCandidateFull] using hmin 0 (Nat.succ_pos i)
      simp only [euCandidateFull, if_neg (Nat.succ_ne_zero i)] at hfree
      have hfind : (List.range' 1 999).find? (fun k => !hasPath (euCandidate
          (getParentFolderPath (normalizeWorkspacePath p))
          (splitFileName (getFileNameFromPath (normalizeWorkspacePath p))).1
          (splitFileName (getFileNameFromPath (normalizeWorkspacePath p))).2 k)) =
          some (i + 1) := by
        refine find?_range'_eq_some 1 999 (i + 1) (by omega) (by omega) (by simp [hfree]) ?_
        intro j hj1 hj2
        have hj := hmin j hj2
        simp only [euCandidateFull, if_neg (by omega : ¬ j = 0)] at hj
        simp [hj]
      have hres := ensureUniquePath_eq_of_find_some hnorm htaken hfind
      refine ⟨?_, ?_, ?_⟩
      · rw [hres]
        simp [euCandidateFull]
      · rw [hres]
        exact hfree
      · rw [hres]
        have hcand := extOf_euCandidate hqN hnorm (i + 1)
        rw [hext0] at hcand
        exact hcand
  · intro hall
    have htaken : hasPath (normalizeWorkspacePath p) = true := by
      simpa [euCandidateFull] using hall 0 (by omega)
    have hfind : (List.range' 1 999).find? (fun k => !hasPath (euCandidate
        (getParentFolderPath (normalizeWorkspacePath p))
        (splitFileName (getFileNameFromPath (normalizeWorkspacePath p))).1
        (splitFileName (getFileNameFromPath (normalizeWorkspacePath p))).2 k)) = none := by
      rw [List.find?_eq_none]
      intro x hx
      obtain ⟨hx1, hx2⟩ := List.mem_range'_1.mp hx
      have hx' := hall x (by omega)
      simp only [euCandidateFull, if_neg (by omega : ¬ x = 0)] at hx'
      simp [hx']
    exact ensureUniquePath_eq_of_find_none hnorm htaken hfind

/-- Witness for C8: `lib/a.ts` collides, `lib/a-1.ts` is returned. -/
theorem c8_ensureUniquePath_spec_witness :
    ensureUniquePath "lib/a.ts" (fun c => c = "lib/a.ts") = euCandidateFull "lib/a.ts" 1 ∧
    (fun c : String => decide (c = "lib/a.ts"))
      (ensureUniquePath "lib/a.ts" (fun c => c = "lib/a.ts")) = false ∧
    extOf (ensureUniquePath "lib/a.ts" (fun c => c = "lib/a.ts")) = extOf "lib/a.ts" :=
  (c8_ensureUniquePath_spec "lib/a.ts" (fun c => c = "lib/a.ts") (by decide)).1 1
    (by decide) (by decide) (by decide)

/-! ## Claim C7: distinctness of file paths across the store operations

The central tool is a pigeonhole argument: `ensureUniquePath` tries 1000
pairwise-distinct candidates, so as soon as the collision predicate only
holds on a pool of at most 999 paths, the returned path is collision-free. -/

theorem euCandidate_same_inj (q : String) {i j : Nat}
    (h : euCandidate (getParentFolderPath q) (splitFileName (getFileNameFromPath q)).1
        (splitFileName (getFileNameFromPath q)).2 i =
      euCandidate (getParentFolderPath q) (splitFileName (getFileNameFromPath q)).1
        (splitFileName (getFileNameFromPath q)).2 j) : i = j := by
  have hd := congrArg String.data h
  rw [euCandidate_data, euCandidate_data] at hd
  have h1 := List.append_cancel_left hd
  have h2 := List.append_cancel_left h1
  injection h2 with _ h3
  exact natToString_inj (congrArg String.mk (List.append_cancel_right h3))

theorem euCandidate_ne_normal {q : String} (hq : normalizeWorkspacePath q = q)
    (hne : q ≠ "") (i : Nat) :
    euCandidate (getParentFolderPath q) (splitFileName (getFileNameFromPath q)).1
      (splitFileName (getFileNameFromPath q)).2 i ≠ q := by
  intro h
  have hd := congrArg String.data h
  rw [euCandidate_data, (normal_decomp hq hne).1] at hd
  have h1 := List.append_cancel_left hd
  have h2 := List.append_cancel_left h1
  have hlen := congrArg List.length h2
  simp only [List.length_cons, List.length_append] at hlen
  omega

/-- Pigeonhole freshness: when the collision predicate only holds on paths
drawn from a pool of at most 999 paths, `ensureUniquePath` returns a path
on which the predicate is false. -/
theorem ensureUniquePath_fresh {p : String} (hasPath : String → Bool) (used : List String)
    (hsub : ∀ c, hasPath c = true → c ∈ used) (hlen : used.length ≤ 999)
    (hnorm : normalizeWorkspacePath p ≠ "") :
    hasPath (ensureUniquePath p hasPath) = false := by
  have hqN : normalizeWorkspacePath (normalizeWorkspacePath p) = normalizeWorkspacePath p :=
    normalizeWorkspacePath_idem p
  cases hfree : hasPath (normalizeWorkspacePath p) with
  | false =>
    rw [ensureUniquePath_eq_of_free hnorm hfree]
    exact hfree
  | true =>
    cases hfind : (List.range' 1 999).find? (fun k => !hasPath (euCandidate
        (getParentFolderPath (normalizeWorkspacePath p))
        (splitFileName (getFileNameFromPath (normalizeWorkspacePath p))).1
        (splitFileName (getFileNameFromPath (normalizeWorkspacePath p))).2 k)) with
    | some i =>
      rw [ensureUniquePath_eq_of_find_some hnorm hfree hfind]
      have h := List.find?_some hfind
      simpa using h
    | none =>
      exfalso
      have hall := List.find?_eq_none.mp hfind
      have hsubset : (normalizeWorkspacePath p ::
          (List.range' 1 999).map (fun k => euCandidate
            (getParentFolderPath (normalizeWorkspacePath p))
            (splitFileName (getFileNameFromPath (normalizeWorkspacePath p))).1
            (splitFileName (getFileNameFromPath (normalizeWorkspacePath p))).2 k)) ⊆ used := by
        intro c hc
        rcases List.mem_cons.mp hc with rfl | hc
        · exact hsub _ hfree
        · rcases List.mem_map.mp hc with ⟨k, hk, rfl⟩
          refine hsub _ ?_
          have h := hall _ hk
          simpa using h
      have hnodup : (normalizeWorkspacePath p ::
          (List.range' 1 999).map (fun k => euCandidate
            (getParentFolderPath (normalizeWorkspacePath p))
            (splitFileName (getFileNameFromPath (normalizeWorkspacePath p))).1
            (splitFileName (getFileNameFromPath (normalizeWorkspacePath p))).2 k)).Nodup := by
        refine List.nodup_cons.mpr ⟨?_, ?_⟩
        · intro hmem
          rcases List.mem_map.mp hmem with ⟨k, _, hk⟩
          exact euCandidate_ne_normal hqN hnorm k hk
        · exact List.Nodup.map (fun a b hab => euCandidate_same_inj _ hab)
            (List.nodup_range' _ _)
      have hle := (List.subperm_of_subset hnodup hsubset).length_le
      simp only [List.length_cons, List.length_map, List.length_range'] at hle
      omega

theorem euCandidate_normal {q : String} (hq : normalizeWorkspacePath q = q) (hne : q ≠ "")
    (i : Nat) :
    normalizeWorkspacePath (euCandidate (getParentFolderPath q)
        (splitFileName (getFileNameFromPath q)).1
        (splitFileName (getFileNameFromPath q)).2 i) =
      euCandidate (getParentFolderPath q) (splitFileName (getFileNameFromPath q)).1
        (splitFileName (getFileNameFromPath q)).2 i := by
  obtain ⟨hfn_ne, hfn_sl, hfn_bs, hfn_tr⟩ := fileName_good hq hne
  obtain ⟨hc_ne, hc_sl, hc_bs, hc_tr⟩ := candName_good hfn_ne hfn_sl hfn_bs hfn_tr i
  unfold euCandidate
  split
  · exact (normalize_single_seg hc_ne hc_sl hc_bs hc_tr).1
  · rename_i hpne
    exact (normalize_parent_seg (parent_normal hq hne) hpne hc_ne hc_sl hc_bs hc_tr).1

/-- The path returned by `ensureUniquePath` is already normalized. -/
theorem ensureUniquePath_normal {p : String} (hasPath : String → Bool)
    (hnorm : normalizeWorkspacePath p ≠ "") :
    normalizeWorkspacePath (ensureUniquePath p hasPath) = ensureUniquePath p hasPath := by
  have hqN := normalizeWorkspacePath_idem p
  cases hfree : hasPath (normalizeWorkspacePath p) with
  | false =>
    rw [ensureUniquePath_eq_of_free hnorm hfree]
    exact hqN
  | true =>
    cases hfind : (List.range' 1 999).find? (fun k => !hasPath (euCandidate
        (getParentFolderPath (normalizeWorkspacePath p))
        (splitFileName (getFileNameFromPath (normalizeWorkspacePath p))).1
        (splitFileName (getFileNameFromPath (normalizeWorkspacePath p))).2 k)) with
    | some i =>
      rw [ensureUniquePath_eq_of_find_some hnorm hfree hfind]
      exact euCandidate_normal hqN hnorm i
    | none =>
      rw [ensureUniquePath_eq_of_find_none hnorm hfree hfind]
      exact hqN

theorem mem_intercalate_of_mem : ∀ {L : List (List Char)} {l : List Char} {c : Char},
    l ∈ L → c ∈ l → c ∈ List.intercalate ['/'] L := by
  intro L
  induction L with
  | nil => intro l c h _; exact absurd h (List.not_mem_nil l)
  | cons x L ih =>
    intro l c hl hc
    cases L with
    | nil =>
      rw [intercalate_single]
      rcases List.mem_cons.mp hl with rfl | h
      · exact hc
      · exact absurd h (List.not_mem_nil l)
    | cons y M =>
      rw [intercalate_cons₂]
      rcases List.mem_cons.mp hl with rfl | h
      · exact List.mem_append_left _ (List.mem_append_left _ hc)
      · exact List.mem_append_right _ (ih h hc)

/-- A character that is neither a slash, a backslash, nor whitespace
survives normalization, so the normalized form is non-empty. -/
theorem normalizeChars_ne_nil_of_mem {cs : List Char} {c : Char} (hc : c ∈ cs)
    (h1 : c ≠ '/') (h2 : c ≠ '\\') (h3 : c.isWhitespace = false) :
    normalizeChars cs ≠ [] := by
  have hmap : c ∈ cs.map bslash2slash :=
    List.mem_map.mpr ⟨c, hc, by unfold bslash2slash; rw [if_neg h2]⟩
  obtain ⟨seg, hseg, hcseg⟩ := exists_mem_splitSeg_of_mem hmap h1
  have hct : c ∈ trimChars seg := mem_trimChars_of_not_ws hcseg h3
  have htne : trimChars seg ≠ [] := by
    intro h
    rw [h] at hct
    exact absurd hct (List.not_mem_nil c)
  intro habs
  unfold normalizeChars at habs
  have hmem : trimChars seg ∈
      ((splitSeg (cs.map bslash2slash)).map trimChars).filter (· ≠ []) :=
    List.mem_filter.mpr ⟨List.mem_map.mpr ⟨seg, hseg, rfl⟩, by simpa using htne⟩
  have hfin := mem_intercalate_of_mem hmem hct
  rw [habs] at hfin
  exact absurd hfin (List.not_mem_nil c)

/-- Appending any suffix to a non-empty normalized path never normalizes to
the empty path: the head character of the first segment survives. -/
theorem normalize_append_ne_empty {t : String} (ht : normalizeWorkspacePath t = t)
    (htne : t ≠ "") (suffix : String) : normalizeWorkspacePath (t ++ suffix) ≠ "" := by
  have hsegs := normSegs_ne_nil_of_ne ht htne
  cases hn : normSegs t.data with
  | nil => exact absurd hn hsegs
  | cons s₀ L =>
    have hs₀ : s₀ ∈ normSegs t.data := by
      rw [hn]
      exact List.mem_cons_self _ _
    obtain ⟨hs_ne, hs_sl, hs_bs, hs_tr⟩ := normSegs_good hs₀
    cases hs : s₀ with
    | nil => exact absurd hs hs_ne
    | cons c r =>
      have hcmem : c ∈ t.data := by
        rw [normal_data_eq ht, hn, hs]
        exact mem_intercalate_of_mem (List.mem_cons_self _ _) (List.mem_cons_self c r)
      have hws : c.isWhitespace = false :=
        head?_trimChars_not_ws (by rw [hs] at hs_tr; rw [hs_tr]; rfl)
      have hcsl : c ≠ '/' := by
        intro h
        rw [hs] at hs_sl
        exact hs_sl (h ▸ List.mem_cons_self c r)
      have hcbs : c ≠ '\\' := by
        intro h
        rw [hs] at hs_bs
        exact hs_bs (h ▸ List.mem_cons_self c r)
      intro habs
      refine normalizeChars_ne_nil_of_mem ?_ hcsl hcbs hws (congrArg String.data habs)
      rw [String.data_append]
      exact List.mem_append_left _ hcmem

theorem ensureUniqueFilePath_fresh {path : String} (files : List File)
    (excludeFileId : Option String) (hlen : files.length ≤ 999)
    (hnorm : normalizeWorkspacePath path ≠ "") :
    files.any (fun file => file.path = ensureUniqueFilePath path files excludeFileId &&
      some file.id ≠ excludeFileId) = false :=
  ensureUniquePath_fresh (fun candidate => files.any (fun file =>
      file.path = candidate && some file.id ≠ excludeFileId))
    (files.map (·.path))
    (fun c hc => by
      rcases List.any_eq_true.mp hc with ⟨g, hg, hgc⟩
      simp only [Bool.and_eq_true, decide_eq_true_eq] at hgc
      exact List.mem_map.mpr ⟨g, hg, hgc.1⟩)
    (by simpa using hlen) hnorm

/-- No file outside the excluded id carries the path chosen by
`ensureUniqueFilePath`. -/
theorem ensureUniqueFilePath_ne {path : String} {files : List File}
    {excludeFileId : Option String} (hlen : files.length ≤ 999)
    (hnorm : normalizeWorkspacePath path ≠ "") :
    ∀ f ∈ files, some f.id ≠ excludeFileId →
      f.path ≠ ensureUniqueFilePath path files excludeFileId := by
  intro f hf hid heq
  have h := ensureUniqueFilePath_fresh files excludeFileId hlen hnorm
  have h2 : files.any (fun file => file.path = ensureUniqueFilePath path files excludeFileId &&
      some file.id ≠ excludeFileId) = true :=
    List.any_eq_true.mpr ⟨f, hf, by simp [heq, hid]⟩
  rw [h] at h2
  exact absurd h2 (by decide)

theorem ensureUniqueFilePath_normal {path : String} (files : List File)
    (excludeFileId : Option String) (hnorm : normalizeWorkspacePath path ≠ "") :
    normalizeWorkspacePath (ensureUniqueFilePath path files excludeFileId) =
      ensureUniqueFilePath path files excludeFileId :=
  ensureUniquePath_normal _ hnorm

/-- Replacing the path of the file with a given id by a globally fresh path
keeps the path list duplicate-free. -/
theorem nodup_map_ite_path {id nextPath : String} : ∀ {files : List File},
    (files.map (·.path)).Nodup → (files.map (·.id)).Nodup →
    (∀ f ∈ files, f.id ≠ id → f.path ≠ nextPath) →
    (files.map (fun f => if f.id = id then nextPath else f.path)).Nodup := by
  intro files
  induction files with
  | nil => intro _ _ _; exact List.nodup_nil
  | cons f fs ih =>
    intro hpaths hids hfresh
    simp only [List.map_cons, List.nodup_cons] at hpaths hids ⊢
    obtain ⟨hp1, hp2⟩ := hpaths
    obtain ⟨hi1, hi2⟩ := hids
    by_cases hfid : f.id = id
    · rw [if_pos hfid]
      constructor
      · intro hmem
        rcases List.mem_map.mp hmem with ⟨g, hg, hgp⟩
        have hgid : g.id ≠ id := by
          intro h
          exact hi1 (List.mem_map.mpr ⟨g, hg, h.trans hfid.symm⟩)
        rw [if_neg hgid] at hgp
        exact hfresh g (List.mem_cons_of_mem f hg) hgid hgp
      · have hmc : fs.map (fun g => if g.id = id then nextPath else g.path) =
            fs.map (·.path) := by
          refine List.map_congr_left (fun g hg => ?_)
          have hgid : g.id ≠ id := by
            intro h
            exact hi1 (List.mem_map.mpr ⟨g, hg, h.trans hfid.symm⟩)
          rw [if_neg hgid]
        rw [hmc]
        exact hp2
    · rw [if_neg hfid]
      constructor
      · intro hmem
        rcases List.mem_map.mp hmem with ⟨g, hg, hgp⟩
        by_cases hgid : g.id = id
        · rw [if_pos hgid] at hgp
          exact hfresh f (List.mem_cons_self f fs) hfid hgp.symm
        · rw [if_neg hgid] at hgp
          exact hp1 (List.mem_map.mpr ⟨g, hg, hgp⟩)
      · exact ih hp2 hi2 (fun g hg => hfresh g (List.mem_cons_of_mem f hg))

theorem length_filter_moved (movedIds : List String) : ∀ (l : List File),
    (l.filter (fun g => movedIds.contains g.id)).length +
      (l.filter (fun g => !movedIds.contains g.id)).length = l.length := by
  intro l
  induction l with
  | nil => rfl
  | cons a l ih =>
    rw [List.filter_cons, List.filter_cons]
    cases h : movedIds.contains a.id
    · rw [if_neg (by decide : ¬ (false = true)), if_pos (by decide : (!false) = true)]
      simp only [List.length_cons]
      omega
    · rw [if_pos (by decide : true = true), if_neg (by decide : ¬ ((!true) = true))]
      simp only [List.length_cons]
      omega

theorem contains_true_iff {l : List String} {a : String} : l.contains a = true ↔ a ∈ l := by
  simp

/-- The moved-file pass of `renameFolder` keeps paths duplicate-free, and
any output path that was already in the pool belongs to an unmoved input
file: moved files always receive paths outside the pool. -/
theorem renameMovedAux_paths_nodup {nf nt : String} (movedIds : List String)
    (hnt : normalizeWorkspacePath nt = nt) (hntne : nt ≠ "") :
    ∀ (fs : List File) (used : List String),
      (∀ g ∈ fs, movedIds.contains g.id = false → g.path ∈ used) →
      ((fs.filter (fun g => !movedIds.contains g.id)).map (·.path)).Nodup →
      used.length + (fs.filter (fun g => movedIds.contains g.id)).length ≤ 1000 →
      ((renameMovedAux nf nt movedIds fs used).map (·.path)).Nodup ∧
      (∀ x, x ∈ (renameMovedAux nf nt movedIds fs used).map (·.path) → x ∈ used →
        ∃ g ∈ fs, movedIds.contains g.id = false ∧ g.path = x) := by
  intro fs
  induction fs with
  | nil =>
    intro used _ _ _
    refine ⟨List.nodup_nil, ?_⟩
    intro x hx
    simp [renameMovedAux] at hx
  | cons f fs ih =>
    intro used hmem hnodup hbound
    have hfcm : List.filter (fun g => movedIds.contains g.id) (f :: fs) =
        if movedIds.contains f.id then f :: List.filter (fun g => movedIds.contains g.id) fs
        else List.filter (fun g => movedIds.contains g.id) fs := by
      rw [List.filter_cons]
    cases hmoved : movedIds.contains f.id with
    | true =>
      rw [hfcm, if_pos hmoved, List.length_cons] at hbound
      have hbound' : used.length ≤ 999 := by omega
      have hdne : normalizeWorkspacePath (nt ++ strDrop f.path nf.length) ≠ "" :=
        normalize_append_ne_empty hnt hntne _
      have hufresh : used.contains (ensureUniquePath (nt ++ strDrop f.path nf.length)
          (fun c => used.contains c)) = false :=
        ensureUniquePath_fresh _ used (fun c hc => contains_true_iff.mp hc) hbound' hdne
      have hunotin : ensureUniquePath (nt ++ strDrop f.path nf.length)
          (fun c => used.contains c) ∉ used := by
        intro h
        rw [contains_true_iff.mpr h] at hufresh
        exact absurd hufresh (by decide)
      have hmem' : ∀ g ∈ fs, movedIds.contains g.id = false →
          g.path ∈ used ++ [ensureUniquePath (nt ++ strDrop f.path nf.length)
            (fun c => used.contains c)] :=
        fun g hg hgid => List.mem_append_left _ (hmem g (List.mem_cons_of_mem f hg) hgid)
      have hnodup' : ((fs.filter (fun g => !movedIds.contains g.id)).map (·.path)).Nodup := by
        rw [List.filter_cons, if_neg (by rw [hmoved]; decide)] at hnodup
        exact hnodup
      have hbound'' : (used ++ [ensureUniquePath (nt ++ strDrop f.path nf.length)
          (fun c => used.contains c)]).length +
          (fs.filter (fun g => movedIds.contains g.id)).length ≤ 1000 := by
        rw [List.length_append, List.length_singleton]
        omega
      obtain ⟨ht1, ht2⟩ := ih _ hmem' hnodup' hbound''
      simp only [renameMovedAux]
      rw [if_pos hmoved]
      simp only [List.map_cons, List.nodup_cons]
      refine ⟨⟨?_, ht1⟩, ?_⟩
      · intro hmem_u
        obtain ⟨g, hg, hgm, hgp⟩ := ht2 _ hmem_u
          (List.mem_append_right _ (List.mem_singleton_self _))
        exact hunotin (hgp ▸ hmem g (List.mem_cons_of_mem f hg) hgm)
      · intro x hx hxused
        rcases List.mem_cons.mp hx with hxu | hx'
        · exact absurd (hxu ▸ hxused) hunotin
        · obtain ⟨g, hg, hgm, hgp⟩ := ht2 x hx' (List.mem_append_left _ hxused)
          exact ⟨g, List.mem_cons_of_mem f hg, hgm, hgp⟩
    | false =>
      rw [hfcm, if_neg (by rw [hmoved]; decide)] at hbound
      have hfcu : List.filter (fun g => !movedIds.contains g.id) (f :: fs) =
          f :: List.filter (fun g => !movedIds.contains g.id) fs := by
        rw [List.filter_cons, if_pos (by rw [hmoved]; rfl)]
      rw [hfcu] at hnodup
      simp only [List.map_cons, List.nodup_cons] at hnodup
      obtain ⟨hf_notin, hnodup'⟩ := hnodup
      obtain ⟨ht1, ht2⟩ := ih used
        (fun g hg hgid => hmem g (List.mem_cons_of_mem f hg) hgid) hnodup' hbound
      simp only [renameMovedAux]
      rw [if_neg (by rw [hmoved]; decide)]
      simp only [List.map_cons, List.nodup_cons]
      refine ⟨⟨?_, ht1⟩, ?_⟩
      · intro hmem_f
        obtain ⟨g, hg, hgm, hgp⟩ := ht2 _ hmem_f (hmem f (List.mem_cons_self f fs) hmoved)
        exact hf_notin (List.mem_map.mpr ⟨g, List.mem_filter.mpr ⟨hg, by rw [hgm]; rfl⟩, hgp⟩)
      · intro x hx hxused
        rcases List.mem_cons.mp hx with hxf | hx'
        · exact ⟨f, List.mem_cons_self f fs, hmoved, hxf.symm⟩
        · obtain ⟨g, hg, hgm, hgp⟩ := ht2 x hx' hxused
          exact ⟨g, List.mem_cons_of_mem f hg, hgm, hgp⟩

/-- The paths of the files rebuilt from a snapshot are the sorted tree keys,
each normalized. -/
theorem createFilesFromTree_paths (idGen : Nat → String) (tree : Tree) :
    (createFilesFromTree idGen tree).map (·.path) =
      (sortPaths (rkeys tree)).map normalizeWorkspacePath := by
  unfold createFilesFromTree
  rw [List.map_map]
  have h : ((fun f : File => f.path) ∘ fun ip : Nat × String =>
      createFile (idGen ip.1) ip.2 (inferLanguageFromPath ip.2)
        ((rfind tree ip.2).getD "") ((rfind tree ip.2).getD "")) =
      (normalizeWorkspacePath ∘ Prod.snd) := rfl
  rw [h, ← List.map_map, List.enum_map_snd]

/-- Mapping an id-targeted file update whose result always carries a fixed
fresh path keeps the path list duplicate-free. -/
theorem nodup_map_update {files : List File} {id : String} (nextPath : String)
    (u : File → File) (hu : ∀ f, (u f).path = nextPath)
    (hpaths : (files.map (·.path)).Nodup) (hids : (files.map (·.id)).Nodup)
    (hfresh : ∀ f ∈ files, f.id ≠ id → f.path ≠ nextPath) :
    ((files.map (fun f => if f.id = id then u f else f)).map (·.path)).Nodup := by
  rw [List.map_map]
  have h : ((fun f : File => f.path) ∘ fun f => if f.id = id then u f else f) =
      (fun f => if f.id = id then nextPath else f.path) := by
    funext g
    by_cases hg : g.id = id
    · simp only [Function.comp_apply, if_pos hg, hu]
    · simp only [Function.comp_apply, if_neg hg]
  rw [h]
  exact nodup_map_ite_path hpaths hids hfresh

/-- A two-branch state whose `dev` tree holds two distinct keys that
normalize to the same workspace path. -/
def exC7Bad : FileStoreState :=
  { files := []
    folders := []
    activeFileId := none
    activeSelection := ""
    gitBranches := [("main", { tree := [], commits := [] }),
      ("dev", { tree := [("a//b", "x"), ("a/b", "y")], commits := [] })]
    gitCurrentBranch := "main"
    gitStagedPaths := [] }

/-- A small well-formed workspace used to witness C7. -/
def exC7W : FileStoreState :=
  { files := [createFile "f1" "src/app.ts" "typescript" "1" "1",
      createFile "f2" "src/sub/b.ts" "typescript" "2" "2",
      createFile "f3" "lib/app.ts" "typescript" "3" "3"]
    folders := ["src", "src/sub", "lib"]
    activeFileId := none
    activeSelection := ""
    gitBranches := [("main", { tree := [], commits := [] })]
    gitCurrentBranch := "main"
    gitStagedPaths := [] }

/-- Counterexample to C7 as stated: starting from a state whose file paths
are pairwise distinct (indeed empty), `switchGitBranch` to a branch whose
snapshot holds the keys `a//b` and `a/b` produces two files that share the
normalized path `a/b`. -/
theorem c7_counterexample :
    (exC7Bad.files.map (·.path)).Nodup ∧
    ¬ (((switchGitBranch exC7Bad "dev" natToString).2.files.map (·.path)).Nodup) := by decide

/-- C7 (amended): from a state with pairwise-distinct file paths,
pairwise-distinct file ids and at most 999 files, `addFile`, `renameFile`,
`renameFolder`, `applyFileEdit` and `deleteFile` keep the file paths
pairwise distinct, and so does `switchGitBranch` provided every key of the
target branch snapshot is a normalized path. -/
theorem c7_path_uniqueness (s : FileStoreState)
    (hpaths : (s.files.map (·.path)).Nodup)
    (hids : (s.files.map (·.id)).Nodup)
    (hcount : s.files.length ≤ 999) :
    (∀ path language newId,
      ((addFile s path language newId).files.map (·.path)).Nodup) ∧
    (∀ id path, ((renameFile s id path).files.map (·.path)).Nodup) ∧
    (∀ fromPath toPath, ((renameFolder s fromPath toPath).files.map (·.path)).Nodup) ∧
    (∀ editPath editContent newId,
      ((applyFileEdit s editPath editContent newId).files.map (·.path)).Nodup) ∧
    (∀ id, ((deleteFile s id).files.map (·.path)).Nodup) ∧
    (∀ name idGen,
      (∀ k ∈ (((rfind s.gitBranches (sanitizeBranchName name)).map (·.tree)).getD []).map
          (fun kv => kv.1), normalizeWorkspacePath k = k) →
      (((switchGitBranch s name idGen).2).files.map (·.path)).Nodup) := by
  refine ⟨?_, ?_, ?_, ?_, ?_, ?_⟩
  · -- addFile
    intro path language newId
    by_cases hnp : normalizeWorkspacePath path = ""
    · simp only [addFile]
      rw [if_pos hnp]
      exact hpaths
    · have hnn : normalizeWorkspacePath (normalizeWorkspacePath path) ≠ "" := by
        rw [normalizeWorkspacePath_idem]
        exact hnp
      simp only [addFile]
      rw [if_neg hnp]
      show ((s.files ++ [createFile newId
        (ensureUniqueFilePath (normalizeWorkspacePath path) s.files none)
        (match language with
          | some l => if jsTrim l ≠ "" then jsTrim l
            else inferLanguageFromPath
              (ensureUniqueFilePath (normalizeWorkspacePath path) s.files none)
          | none => inferLanguageFromPath
              (ensureUniqueFilePath (normalizeWorkspacePath path) s.files none))
        "" ""]).map (·.path)).Nodup
      rw [List.map_append, List.nodup_append]
      refine ⟨hpaths, by simp, ?_⟩
      intro x hx hx2
      simp only [List.map_cons, List.map_nil, List.mem_singleton] at hx2
      rcases List.mem_map.mp hx with ⟨f, hf, hfp⟩
      have hx3 : x = ensureUniqueFilePath (normalizeWorkspacePath path) s.files none := by
        rw [hx2]
        show normalizeWorkspacePath
          (ensureUniqueFilePath (normalizeWorkspacePath path) s.files none) = _
        exact ensureUniqueFilePath_normal s.files none hnn
      exact absurd (hfp.trans hx3) (ensureUniqueFilePath_ne hcount hnn f hf (by simp))
  · -- renameFile
    intro id path
    cases hfind : s.files.find? (fun file => file.id = id) with
    | none =>
      simp only [renameFile, hfind]
      exact hpaths
    | some existing =>
      by_cases hnp : normalizeWorkspacePath path = ""
      · simp only [renameFile, hfind]
        rw [if_pos hnp]
        exact hpaths
      · have hnn : normalizeWorkspacePath (normalizeWorkspacePath path) ≠ "" := by
          rw [normalizeWorkspacePath_idem]
          exact hnp
        by_cases hsame : ensureUniqueFilePath (normalizeWorkspacePath path) s.files (some id) =
            existing.path
        · simp only [renameFile, hfind]
          rw [if_neg hnp, if_pos hsame]
          exact hpaths
        · simp only [renameFile, hfind]
          rw [if_neg hnp, if_neg hsame]
          refine nodup_map_update
            (ensureUniqueFilePath (normalizeWorkspacePath path) s.files (some id))
            _ (fun f => rfl) hpaths hids ?_
          intro f hf hfid
          exact ensureUniqueFilePath_ne hcount hnn f hf (by simp [hfid])
  · -- renameFolder
    intro fromPath toPath
    by_cases h1 : normalizeWorkspacePath fromPath = "" ∨ normalizeWorkspacePath toPath = "" ∨
        normalizeWorkspacePath fromPath = normalizeWorkspacePath toPath
    · simp only [renameFolder]
      rw [if_pos h1]
      exact hpaths
    · obtain ⟨h1a, h1bc⟩ := not_or.mp h1
      obtain ⟨h1b, h1c⟩ := not_or.mp h1bc
      by_cases h2 : strStartsWith (normalizeWorkspacePath toPath)
          (normalizeWorkspacePath fromPath ++ "/") = true
      · simp only [renameFolder]
        rw [if_neg h1, if_pos h2]
        exact hpaths
      · by_cases h3 : (!(mergeFolderPaths [s.folders, inferFolderPathsFromFiles s.files]).any
            (fun path => path = normalizeWorkspacePath fromPath ||
              strStartsWith path (normalizeWorkspacePath fromPath ++ "/"))) = true
        · simp only [renameFolder]
          rw [if_neg h1, if_neg h2, if_pos h3]
          exact hpaths
        · simp only [renameFolder]
          rw [if_neg h1, if_neg h2, if_neg h3]
          refine (renameMovedAux_paths_nodup _ (normalizeWorkspacePath_idem toPath) h1b
            s.files _ ?_ ?_ ?_).1
          · intro g hg hgid
            exact List.mem_map.mpr ⟨g, List.mem_filter.mpr ⟨hg, by rw [hgid]; rfl⟩, rfl⟩
          · exact hpaths.sublist ((List.filter_sublist _).map _)
          · have hsplit := length_filter_moved ((s.files.filter (fun file =>
                strStartsWith file.path (normalizeWorkspacePath fromPath ++ "/"))).map
                (·.id)) s.files
            rw [List.length_map]
            omega
  · -- applyFileEdit
    intro editPath editContent newId
    by_cases hnp : normalizeWorkspacePath editPath = ""
    · simp only [applyFileEdit]
      rw [if_pos hnp]
      exact hpaths
    · cases hfind : s.files.find? (fun file => file.path = normalizeWorkspacePath editPath) with
      | some existing =>
        simp only [applyFileEdit, hfind]
        rw [if_neg hnp]
        have hpe : ((s.files.map (fun file => if file.id = existing.id then
            { file with content := editContent } else file)).map (·.path)) =
            s.files.map (·.path) := by
          rw [List.map_map]
          refine List.map_congr_left (fun g hg => ?_)
          by_cases h : g.id = existing.id <;> simp [h]
        rw [hpe]
        exact hpaths
      | none =>
        simp only [applyFileEdit, hfind]
        rw [if_neg hnp]
        rw [List.map_append, List.nodup_append]
        refine ⟨hpaths, by simp, ?_⟩
        intro x hx hx2
        simp only [List.map_cons, List.map_nil, List.mem_singleton] at hx2
        rcases List.mem_map.mp hx with ⟨f, hf, hfp⟩
        have hall := List.find?_eq_none.mp hfind f hf
        simp only [decide_eq_true_eq] at hall
        apply hall
        rw [hfp, hx2]
        show normalizeWorkspacePath (normalizeWorkspacePath editPath) = _
        rw [normalizeWorkspacePath_idem]
  · -- deleteFile
    intro id
    simp only [deleteFile]
    exact hpaths.sublist ((List.filter_sublist _).map _)
  · -- switchGitBranch
    intro name idGen hkeys
    by_cases hsn : sanitizeBranchName name = ""
    · simp only [switchGitBranch]
      rw [if_pos hsn]
      exact hpaths
    · cases hfb : rfind s.gitBranches (sanitizeBranchName name) with
      | none =>
        simp only [switchGitBranch, hfb]
        rw [if_neg hsn]
        exact hpaths
      | some targetBranch =>
        by_cases hcur : sanitizeBranchName name = s.gitCurrentBranch
        · simp only [switchGitBranch, hfb]
          rw [if_neg hsn, if_pos hcur]
          exact hpaths
        · by_cases hpend : getGitChanges s.files
              (((rfind s.gitBranches s.gitCurrentBranch).map (·.tree)).getD [])
              s.gitStagedPaths ≠ []
          · simp only [switchGitBranch, hfb]
            rw [if_neg hsn, if_neg hcur, if_pos hpend]
            exact hpaths
          · simp only [switchGitBranch, hfb]
            rw [if_neg hsn, if_neg hcur, if_neg hpend]
            show ((createFilesFromTree idGen targetBranch.tree).map (·.path)).Nodup
            have hkeys' : ∀ k ∈ targetBranch.tree.map (fun kv => kv.1),
                normalizeWorkspacePath k = k := by
              intro k hk
              refine hkeys k ?_
              rw [hfb]
              exact hk
            have hful : ∀ k ∈ sortPaths (rkeys targetBranch.tree),
                normalizeWorkspacePath k = k := by
              intro k hk
              exact hkeys' k (dedupKeepFirst_mem.mp (sortPaths_mem.mp hk))
            rw [createFilesFromTree_paths, map_eq_self_of hful]
            exact sortPaths_nodup (dedupKeepFirst_nodup _)

/-- Witness for C7: each operation applied to the concrete workspace
`exC7W`. -/
theorem c7_path_uniqueness_witness :
    ((addFile exC7W "notes.md" none "f9").files.map (·.path)).Nodup ∧
    ((renameFile exC7W "f1" "lib/app.ts").files.map (·.path)).Nodup ∧
    ((renameFolder exC7W "src" "lib").files.map (·.path)).Nodup ∧
    ((applyFileEdit exC7W "src/app.ts" "x" "f9").files.map (·.path)).Nodup ∧
    ((deleteFile exC7W "f1").files.map (·.path)).Nodup ∧
    (((switchGitBranch exC7W "main" natToString).2).files.map (·.path)).Nodup := by
  have h := c7_path_uniqueness exC7W (by decide) (by decide) (by decide)
  exact ⟨h.1 "notes.md" none "f9", h.2.1 "f1" "lib/app.ts", h.2.2.1 "src" "lib",
    h.2.2.2.1 "src/app.ts" "x" "f9", h.2.2.2.2.1 "f1",
    h.2.2.2.2.2 "main" natToString (by decide)⟩

/-! ## Claim C6: which files `renameFolder` moves -/

theorem renameMovedAux_length (nf nt : String) (movedIds : List String) :
    ∀ (fs : List File) (used : List String),
      (renameMovedAux nf nt movedIds fs used).length = fs.length := by
  intro fs
  induction fs with
  | nil => intro _; rfl
  | cons a l ih =>
    intro used
    cases hmoved : movedIds.contains a.id
    · simp only [renameMovedAux]
      rw [if_neg (by rw [hmoved]; decide)]
      simp only [List.length_cons, ih]
    · simp only [renameMovedAux]
      rw [if_pos hmoved]
      simp only [List.length_cons, ih]

/-- The record update a moved file receives in `renameFolder`: the new
path together with the name and language derived from it. -/
def moveFile (f : File) (u : String) : File :=
  { f with path := u, name := getFileNameFromPath u, language := inferLanguageFromPath u }

/-- Positional behaviour of the per-file rename pass: an unmoved file is
passed through unchanged at its index; a moved file keeps its index, id and
contents and receives exactly the destination `nt ++ suffix` deduplicated
against the initial pool extended by the destinations already assigned to
the earlier-moved files. -/
theorem renameMovedAux_getElem? (nf nt : String) (movedIds : List String) :
    ∀ (fs : List File) (used : List String) (i : Nat) (f : File), fs[i]? = some f →
      (movedIds.contains f.id = false →
        (renameMovedAux nf nt movedIds fs used)[i]? = some f) ∧
      (movedIds.contains f.id = true →
        (renameMovedAux nf nt movedIds fs used)[i]? = some (moveFile f
          (ensureUniquePath (nt ++ strDrop f.path nf.length)
            (fun c => (used ++ ((((renameMovedAux nf nt movedIds fs used).take i).filter
              (fun g => movedIds.contains g.id)).map (·.path))).contains c)))) := by
  intro fs
  induction fs with
  | nil =>
    intro used i f hf
    rw [List.getElem?_nil] at hf
    cases hf
  | cons a l ih =>
    intro used i f hf
    cases i with
    | zero =>
      rw [List.getElem?_cons_zero] at hf
      injection hf with hfa
      subst hfa
      cases hmoved : movedIds.contains a.id with
      | false =>
        refine ⟨fun _ => ?_, fun hco => absurd hco (by decide)⟩
        simp only [renameMovedAux]
        rw [if_neg (by rw [hmoved]; decide), List.getElem?_cons_zero]
      | true =>
        refine ⟨fun hco => absurd hco (by decide), fun _ => ?_⟩
        simp only [List.take_zero, List.filter_nil, List.map_nil, List.append_nil]
        simp only [renameMovedAux]
        rw [if_pos hmoved, List.getElem?_cons_zero]
        rfl
    | succ j =>
      rw [List.getElem?_cons_succ] at hf
      cases hmoved : movedIds.contains a.id with
      | false =>
        have h := ih used j f hf
        simp only [renameMovedAux]
        rw [if_neg (by rw [hmoved]; decide)]
        rw [List.getElem?_cons_succ, List.take_succ_cons, List.filter_cons,
          if_neg (by rw [hmoved]; decide)]
        exact h
      | true =>
        have h := ih (used ++ [ensureUniquePath (nt ++ strDrop a.path nf.length)
          (fun c => used.contains c)]) j f hf
        simp only [renameMovedAux]
        simp only [hmoved, eq_self_iff_true, if_true, List.getElem?_cons_succ,
          List.take_succ_cons, List.filter_cons, List.map_cons]
        rw [← List.append_cons] at h
        exact h

theorem eq_of_nodup_map_id : ∀ {fs : List File}, (fs.map (·.id)).Nodup →
    ∀ {f g : File}, f ∈ fs → g ∈ fs → f.id = g.id → f = g := by
  intro fs
  induction fs with
  | nil => intro _ f g hf; cases hf
  | cons a l ih =>
    intro h f g hf hg hid
    simp only [List.map_cons, List.nodup_cons] at h
    obtain ⟨h1, h2⟩ := h
    rcases List.mem_cons.mp hf with rfl | hf'
    · rcases List.mem_cons.mp hg with rfl | hg'
      · rfl
      · exact absurd (List.mem_map.mpr ⟨g, hg', hid.symm⟩) h1
    · rcases List.mem_cons.mp hg with rfl | hg'
      · exact absurd (List.mem_map.mpr ⟨f, hf', hid⟩) h1
      · exact ih h2 hf' hg' hid

/-- With pairwise-distinct file ids, membership of a file's id in the
moved-id list is equivalent to the file's own path matching the filter. -/
theorem movedIds_contains_iff {fs : List File} (hids : (fs.map (·.id)).Nodup)
    {nfs : String} {f : File} (hf : f ∈ fs) :
    ((fs.filter (fun file => strStartsWith file.path nfs)).map (·.id)).contains f.id = true ↔
      strStartsWith f.path nfs = true := by
  constructor
  · intro h
    rcases List.mem_map.mp (contains_true_iff.mp h) with ⟨g, hg, hgid⟩
    rcases List.mem_filter.mp hg with ⟨hgmem, hgs⟩
    exact (eq_of_nodup_map_id hids hgmem hf hgid) ▸ hgs
  · intro h
    exact contains_true_iff.mpr (List.mem_map.mpr ⟨f, List.mem_filter.mpr ⟨hf, h⟩, rfl⟩)

/-- The `movedFileIds` set of `renameFolder`: the ids of the files whose
path lies strictly under the normalized source folder `nf`. -/
def movedFileIdsOf (files : List File) (nf : String) : List String :=
  (files.filter (fun file => strStartsWith file.path (nf ++ "/"))).map (·.id)

/-- The `usedPaths` pool of `renameFolder`: the paths of the files that are
not being moved, against which destinations are deduplicated. -/
def unmovedPathsOf (files : List File) (nf : String) : List String :=
  (files.filter (fun file => !(movedFileIdsOf files nf).contains file.id)).map (·.path)

/-- The worked example of the spec: `src/a.ts`, `src/sub/b.ts` and an
unrelated `lib/a.ts`. -/
def exC6State : FileStoreState :=
  { files := [createFile "a1" "src/a.ts" "typescript" "1" "1",
      createFile "b1" "src/sub/b.ts" "typescript" "2" "2",
      createFile "c1" "lib/a.ts" "typescript" "3" "3"]
    folders := ["src", "src/sub", "lib"]
    activeFileId := none
    activeSelection := ""
    gitBranches := [("main", { tree := [], commits := [] })]
    gitCurrentBranch := "main"
    gitStagedPaths := [] }

/-- A workspace holding one file whose path is exactly the folder `src`. -/
def exC6EqState : FileStoreState :=
  { files := [createFile "a1" "src" "plaintext" "" ""]
    folders := ["src"]
    activeFileId := none
    activeSelection := ""
    gitBranches := [("main", { tree := [], commits := [] })]
    gitCurrentBranch := "main"
    gitStagedPaths := [] }

/-- Counterexample to C6 as stated: all the claim's side conditions hold
and the file's path *equals* the source folder, yet `renameFolder` leaves
it unrenamed — only paths strictly below `fromPath + "/"` are moved. -/
theorem c6_equal_path_counterexample :
    (normalizeWorkspacePath "src" ≠ "" ∧ normalizeWorkspacePath "lib" ≠ "" ∧
      normalizeWorkspacePath "src" ≠ normalizeWorkspacePath "lib" ∧
      strStartsWith (normalizeWorkspacePath "lib")
        (normalizeWorkspacePath "src" ++ "/") = false ∧
      (mergeFolderPaths [exC6EqState.folders,
        inferFolderPathsFromFiles exC6EqState.files]).any
        (fun path => path = normalizeWorkspacePath "src" ||
          strStartsWith path (normalizeWorkspacePath "src" ++ "/")) = true) ∧
    (∃ f ∈ exC6EqState.files, f.path = normalizeWorkspacePath "src") ∧
    (renameFolder exC6EqState "src" "lib").files.map (·.path) = ["src"] := by decide

/-- C6 (amended): under the rename guards, `renameFolder` keeps the file
count; a file whose path does not begin with `fromPath + "/"` — including a
file whose path *equals* `fromPath` — is passed through unchanged at its
index, while a file strictly below `fromPath + "/"` keeps its index, id and
contents and is renamed to exactly `toPath ++ suffix` deduplicated against
the paths of the unmoved files plus the destinations already assigned to
the earlier-moved files; on the spec's worked example the destinations are
`lib/a-1.ts` and `lib/sub/b.ts`. -/
theorem c6_renameFolder_moves (s : FileStoreState) (fromPath toPath : String)
    (hids : (s.files.map (·.id)).Nodup)
    (hfa : normalizeWorkspacePath fromPath ≠ "")
    (hfb : normalizeWorkspacePath toPath ≠ "")
    (hfc : normalizeWorkspacePath fromPath ≠ normalizeWorkspacePath toPath)
    (hfd : strStartsWith (normalizeWorkspacePath toPath)
      (normalizeWorkspacePath fromPath ++ "/") = false)
    (hfe : (mergeFolderPaths [s.folders, inferFolderPathsFromFiles s.files]).any
      (fun path => path = normalizeWorkspacePath fromPath ||
        strStartsWith path (normalizeWorkspacePath fromPath ++ "/")) = true) :
    ((renameFolder s fromPath toPath).files.length = s.files.length ∧
     (∀ (i : Nat) (f : File), s.files[i]? = some f →
       (strStartsWith f.path (normalizeWorkspacePath fromPath ++ "/") = false →
         (renameFolder s fromPath toPath).files[i]? = some f) ∧
       (strStartsWith f.path (normalizeWorkspacePath fromPath ++ "/") = true →
         (renameFolder s fromPath toPath).files[i]? = some (moveFile f
           (ensureUniquePath (normalizeWorkspacePath toPath ++
               strDrop f.path (normalizeWorkspacePath fromPath).length)
             (fun c => (unmovedPathsOf s.files (normalizeWorkspacePath fromPath) ++
               ((((renameFolder s fromPath toPath).files.take i).filter
                 (fun g => (movedFileIdsOf s.files
                   (normalizeWorkspacePath fromPath)).contains g.id)).map
                 (·.path))).contains c)))))) ∧
    (renameFolder exC6State "src" "lib").files.map (·.path) =
      ["lib/a-1.ts", "lib/sub/b.ts", "lib/a.ts"] := by
  have hred : (renameFolder s fromPath toPath).files =
      renameMovedAux (normalizeWorkspacePath fromPath) (normalizeWorkspacePath toPath)
        ((s.files.filter (fun file => strStartsWith file.path
          (normalizeWorkspacePath fromPath ++ "/"))).map (·.id)) s.files
        ((s.files.filter (fun file => !((s.files.filter (fun file =>
          strStartsWith file.path (normalizeWorkspacePath fromPath ++ "/"))).map
          (·.id)).contains file.id)).map (·.path)) := by
    simp only [renameFolder]
    rw [if_neg (not_or.mpr ⟨hfa, not_or.mpr ⟨hfb, hfc⟩⟩),
      if_neg (by rw [hfd]; decide), if_neg (by rw [hfe]; decide)]
  refine ⟨⟨?_, ?_⟩, by decide⟩
  · rw [hred]
    exact renameMovedAux_length _ _ _ s.files _
  · intro i f hif
    rw [hred]
    have hf : f ∈ s.files := List.getElem?_mem hif
    refine ⟨fun hns => ?_, fun hs => ?_⟩
    · refine (renameMovedAux_getElem? _ _ _ s.files _ i f hif).1 ?_
      cases hcm : ((s.files.filter (fun file => strStartsWith file.path
          (normalizeWorkspacePath fromPath ++ "/"))).map (·.id)).contains f.id
      · rfl
      · exact absurd (((movedIds_contains_iff hids hf).mp hcm).symm.trans hns) (by decide)
    · exact (renameMovedAux_getElem? (normalizeWorkspacePath fromPath)
        (normalizeWorkspacePath toPath)
        (movedFileIdsOf s.files (normalizeWorkspacePath fromPath)) s.files
        (unmovedPathsOf s.files (normalizeWorkspacePath fromPath)) i f hif).2
        ((movedIds_contains_iff hids hf).mpr hs)

/-- Witness for C6 at the spec's worked example. -/
theorem c6_renameFolder_moves_witness :
    ((renameFolder exC6State "src" "lib").files.length = exC6State.files.length ∧
     (∀ (i : Nat) (f : File), exC6State.files[i]? = some f →
       (strStartsWith f.path (normalizeWorkspacePath "src" ++ "/") = false →
         (renameFolder exC6State "src" "lib").files[i]? = some f) ∧
       (strStartsWith f.path (normalizeWorkspacePath "src" ++ "/") = true →
         (renameFolder exC6State "src" "lib").files[i]? = some (moveFile f
           (ensureUniquePath (normalizeWorkspacePath "lib" ++
               strDrop f.path (normalizeWorkspacePath "src").length)
             (fun c => (unmovedPathsOf exC6State.files (normalizeWorkspacePath "src") ++
               ((((renameFolder exC6State "src" "lib").files.take i).filter
                 (fun g => (movedFileIdsOf exC6State.files
                   (normalizeWorkspacePath "src")).contains g.id)).map
                 (·.path))).contains c)))))) ∧
    (renameFolder exC6State "src" "lib").files.map (·.path) =
      ["lib/a-1.ts", "lib/sub/b.ts", "lib/a.ts"] :=
  c6_renameFolder_moves exC6State "src" "lib" (by decide) (by decide) (by decide)
    (by decide) (by decide) (by decide)

end VsLite
